import Mathlib

/-! Verification of the `mlp` layer core (`hidden_layer.go`, `softmax.go`).

A shallow embedding of the dense layer (`HiddenLayer`) and of the softmax
output layer (`SoftmaxLayer`) together with proofs about forward propagation,
delta back-projection, gradients and the mini-batch update.

Modelling conventions.

* `float64` is idealised as a linearly ordered field `α` (instantiate `ℚ` to
  compute, `ℝ` with `Real.exp` for the softmax).  Every sum is accumulated in
  the order in which the Go loop accumulates it.
* A Go slice is a `List`; a `nil` slice is `[]`.  Rows of a matrix are
  distinct buffers, as `MakeMatrix` allocates them.
* A run of a function is a value of `Run σ = Except Fault σ`: `.ok` carries the
  returned value (for a method that mutates its receiver: the receiver after
  the call), `.error` names the reason why the run left the model: a slice
  index out of range, a call through a `nil` function value, a `make` with a
  negative length (all three are runtime panics), or a float division by zero
  (which Go answers with `±Inf`/`NaN`, values the field does not have).
* `for i := 0; i < n; i++` and `for i := range xs` are `loop body n`, which
  runs `body 0`, `body 1`, ... `body (n-1)` in this order on an explicit state.
* The global random source of `math/rand` is a stream `rand : Nat → α` with a
  count of the calls made so far, threaded through `Init` and `NewHiddenLayer`.
* A method that `SoftmaxLayer` does not declare is the method of the embedded
  `HiddenLayer`, run on the embedded struct.
* `GradientOn` and `TurnOn` are `Gradient` and `Turn` on an arbitrary carrier
  of float values whose operations are all total (`FloatOps`): a division by
  zero yields a value and the run goes on, as it does in Go.
-/

namespace Mlp

/-! ## Runs, loops and slices -/

/-- Reasons for which a run leaves the exact-arithmetic model. -/
inductive Fault where
  | indexOutOfRange
  | nilFunc
  | negativeLen
  | divByZero
  deriving DecidableEq

/-- Outcome of running a Go function. -/
abbrev Run (σ : Type) : Type := Except Fault σ

/-- Counting loop: `body 0`, then `body 1`, ... up to `body (n-1)`, threading the state
and stopping at the first fault. -/
def loop {σ : Type} (body : Nat → σ → Run σ) : Nat → σ → Run σ
  | 0, s => .ok s
  | k + 1, s => loop body k s >>= body k

/-- Slice read `xs[i]`. -/
def index {β : Type} (xs : List β) (i : Nat) : Run β :=
  match xs[i]? with
  | some x => .ok x
  | none => .error .indexOutOfRange

/-- Slice write `xs[i] = v`. -/
def assign {β : Type} (xs : List β) (i : Nat) (v : β) : Run (List β) :=
  if i < xs.length then .ok (xs.set i v) else .error .indexOutOfRange

/-- Call through a function value that may be `nil`. -/
def call {β : Type} (g : Option (β → β)) (x : β) : Run β :=
  match g with
  | some fn => .ok (fn x)
  | none => .error .nilFunc

/-- Allocation `make([]float64, n)` for an `int` length. -/
def makeSlice {β : Type} [Zero β] (n : Int) : Run (List β) :=
  if 0 ≤ n then .ok (List.replicate n.toNat 0) else .error .negativeLen

/-- Float division `x / y`; a zero divisor has no value in the field. -/
def fdiv {β : Type} [Div β] [Zero β] [DecidableEq β] (x y : β) : Run β :=
  if y = 0 then .error .divByZero else .ok (x / y)

/-- Modelled from the spec: `nnet.MakeMatrix`, the external allocator of §6,
"a zero-filled 2D numeric buffer of given dimensions". -/
def MakeMatrix {β : Type} [Zero β] (rows cols : Nat) : List (List β) :=
  List.replicate rows (List.replicate cols 0)

/-- Entry `m[j][i]` of a matrix, `0` outside of it (used in statements only). -/
def entry {β : Type} [Zero β] (m : List (List β)) (j i : Nat) : β :=
  (m.getD j []).getD i 0

/-- The slice of length `n` whose `i`-th element is `F i`: `[F 0, ..., F (n-1)]`. -/
def vec {β : Type} (n : Nat) (F : Nat → β) : List β := (List.range n).map F

/-- The `m × n` matrix whose entry `[j][i]` is `E j i`. -/
def tab {β : Type} (m n : Nat) (E : Nat → Nat → β) : List (List β) :=
  vec m (fun j => vec n (E j))

/-! ## Data model -/

/-- The struct `HiddenLayer`; `f` and `d` are `none` when the Go field is `nil`. -/
structure HiddenLayer (α : Type) where
  W : List (List α)
  B : List α
  NumInputUnits : Int
  NumHiddenUnits : Int
  f : Option (α → α)
  d : Option (α → α)

/-- Modelled from the spec: the configuration value `TrainingOption` of §3, whose
declaration is outside of the two source files. -/
structure TrainingOption (α : Type) where
  LearningRate : α
  L2Regularization : Bool
  RegularizationRate : α

/-- The struct `SoftmaxLayer`, which embeds a `HiddenLayer`. -/
structure SoftmaxLayer (α : Type) extends HiddenLayer α

variable {α : Type} [LinearOrderedField α]

/-! ## `hidden_layer.go` -/

namespace HiddenLayer

/-- Embeds `func (h *HiddenLayer) Forward(input []float64) []float64`. -/
def Forward (h : HiddenLayer α) (input : List α) : Run (List α) :=
  let numOutputUnits := h.B.length
  loop (fun i predicted => do
      let sum ← loop (fun j sum => do
          let wj ← index h.W j
          let wji ← index wj i
          let xj ← index input j
          pure (sum + wji * xj)) input.length 0
      let bi ← index h.B i
      let y ← call h.f (sum + bi)
      assign predicted i y)
    numOutputUnits (List.replicate numOutputUnits 0)

/-- Embeds `ForwardBatch`. -/
def ForwardBatch (h : HiddenLayer α) (input : List (List α)) : Run (List (List α)) :=
  loop (fun i predicted => do
      let xi ← index input i
      let p ← h.Forward xi
      assign predicted i p)
    input.length (List.replicate input.length [])

/-- Embeds `AccumulateDelta`. -/
def AccumulateDelta (h : HiddenLayer α) (deltas : List α) : Run (List α) := do
  let acc ← makeSlice h.NumInputUnits
  loop (fun i acc => do
      let sum ← loop (fun j sum => do
          let dj ← index deltas j
          let wi ← index h.W i
          let wij ← index wi j
          pure (sum + dj * wij)) h.NumHiddenUnits.toNat 0
      assign acc i sum)
    acc.length acc

/-- Embeds `AccumulateDeltaBatch`. -/
def AccumulateDeltaBatch (h : HiddenLayer α) (deltas : List (List α)) :
    Run (List (List α)) :=
  loop (fun i acc => do
      let di ← index deltas i
      let a ← h.AccumulateDelta di
      assign acc i a)
    deltas.length (List.replicate deltas.length [])

/-- Embeds `BackwardWithTarget`. -/
def BackwardWithTarget (h : HiddenLayer α) (predicted target : List α) : Run (List α) := do
  let delta ← makeSlice h.NumHiddenUnits
  loop (fun i delta => do
      let pi ← index predicted i
      let ti ← index target i
      let s ← call h.d pi
      assign delta i ((pi - ti) * s))
    h.NumHiddenUnits.toNat delta

/-- Embeds `Backward`. -/
def Backward (h : HiddenLayer α) (predicted accumulateDelta : List α) : Run (List α) := do
  let delta ← makeSlice h.NumHiddenUnits
  loop (fun i delta => do
      let ai ← index accumulateDelta i
      let pi ← index predicted i
      let s ← call h.d pi
      assign delta i (ai * s))
    h.NumHiddenUnits.toNat delta

/-- Embeds `BackwardWithTargetBatch`. -/
def BackwardWithTargetBatch (h : HiddenLayer α) (predicted target : List (List α)) :
    Run (List (List α) × List (List α)) := do
  let deltas ← loop (fun i deltas => do
      let pi ← index predicted i
      let ti ← index target i
      let dl ← h.BackwardWithTarget pi ti
      assign deltas i dl)
    predicted.length (List.replicate predicted.length [])
  let acc ← h.AccumulateDeltaBatch deltas
  pure (deltas, acc)

/-- Embeds `BackwardBatch`. -/
def BackwardBatch (h : HiddenLayer α) (predicted accumulateDelta : List (List α)) :
    Run (List (List α) × List (List α)) := do
  let deltas ← loop (fun i deltas => do
      let pi ← index predicted i
      let ai ← index accumulateDelta i
      let dl ← h.Backward pi ai
      assign deltas i dl)
    predicted.length (List.replicate predicted.length [])
  let acc ← h.AccumulateDeltaBatch deltas
  pure (deltas, acc)

/-- Statement `gradW[j][i] -= v`. -/
def subAt (g : List (List α)) (j i : Nat) (v : α) : Run (List (List α)) := do
  let gj ← index g j
  let gji ← index gj i
  let gj' ← assign gj i (gji - v)
  assign g j gj'

/-- Embeds `Gradient`. -/
def Gradient (h : HiddenLayer α) (input deltas : List (List α)) :
    Run (List (List α) × List α) := do
  let w0 ← index h.W 0
  let gradW : List (List α) := MakeMatrix h.W.length w0.length
  let gradB : List α := List.replicate h.B.length 0
  loop (fun n g =>
      loop (fun i g => do
          let gW ← loop (fun j gW => do
              let dn ← index deltas n
              let dni ← index dn i
              let xn ← index input n
              let xnj ← index xn j
              subAt gW j i (dni * xnj))
            h.NumInputUnits.toNat g.1
          let dn ← index deltas n
          let dni ← index dn i
          let bi ← index g.2 i
          let gB ← assign g.2 i (bi - dni)
          pure (gW, gB))
        h.NumHiddenUnits.toNat g)
    input.length (gradW, gradB)

/-- Statement `h.W[j][i] = v`. -/
def setW {β : Type} (h : HiddenLayer β) (j i : Nat) (v : β) : Run (HiddenLayer β) := do
  let wj ← index h.W j
  let wj' ← assign wj i v
  let W' ← assign h.W j wj'
  pure { h with W := W' }

/-- Statement `h.B[i] = v`. -/
def setB {β : Type} (h : HiddenLayer β) (i : Nat) (v : β) : Run (HiddenLayer β) := do
  let B' ← assign h.B i v
  pure { h with B := B' }

/-- Embeds `Turn`; the result is the receiver after the in-place update. -/
def Turn (h : HiddenLayer α) (batch deltas : List (List α)) (option : TrainingOption α) :
    Run (HiddenLayer α) := do
  let (gradW, gradB) ← h.Gradient batch deltas
  loop (fun i h => do
      let h ← loop (fun j h => do
          let gj ← index gradW j
          let gji ← index gj i
          let q ← fdiv (option.LearningRate * gji) (batch.length : α)
          let wj ← index h.W j
          let wji ← index wj i
          let h ← h.setW j i (wji + q)
          if option.L2Regularization then do
            let wj ← index h.W j
            let wji ← index wj i
            h.setW j i (wji * (1 - option.RegularizationRate))
          else pure h)
        h.NumInputUnits.toNat h
      let gi ← index gradB i
      let q ← fdiv (option.LearningRate * gi) (batch.length : α)
      let bi ← index h.B i
      h.setB i (bi + q))
    h.NumHiddenUnits.toNat h

end HiddenLayer

/-! ## `softmax.go` -/

/-- Embeds `NewSoftmaxLayer`: only the two size fields are set, every other field keeps
its zero value (`nil`), and the arguments `f` and `d` are dropped. -/
def NewSoftmaxLayer (numInputUnits numHiddenUnits : Int) (_f _d : Option (α → α)) :
    SoftmaxLayer α :=
  { W := [], B := [], NumInputUnits := numInputUnits, NumHiddenUnits := numHiddenUnits,
    f := none, d := none }

namespace SoftmaxLayer

/-- Embeds `func (s *SoftmaxLayer) Forward`; `exp` stands for `math.Exp`. -/
def Forward (exp : α → α) (s : SoftmaxLayer α) (input : List α) : Run (List α) :=
  let numOutputUnits := s.B.length
  loop (fun i predicted => do
      let sum ← loop (fun j sum => do
          let xj ← index input j
          pure (sum + exp xj)) input.length 0
      let xi ← index input i
      let y ← fdiv (exp xi) sum
      assign predicted i y)
    numOutputUnits (List.replicate numOutputUnits 0)

/-- Embeds `func (s *SoftmaxLayer) BackwardWithTarget`. -/
def BackwardWithTarget (s : SoftmaxLayer α) (predicted target : List α) : Run (List α) := do
  let delta ← makeSlice s.NumHiddenUnits
  loop (fun i delta => do
      let pi ← index predicted i
      let ti ← index target i
      assign delta i (pi - ti))
    delta.length delta

/-- Embeds `func (s *SoftmaxLayer) Backward`. -/
def Backward (s : SoftmaxLayer α) (_predicted accumulateDelta : List α) : Run (List α) := do
  let delta ← makeSlice s.NumHiddenUnits
  loop (fun i delta => do
      let ai ← index accumulateDelta i
      assign delta i ai)
    delta.length delta

/-- Embeds `func (s *SoftmaxLayer) Turn`, whose body is empty. -/
def Turn (s : SoftmaxLayer α) (_batch _deltas : List (List α)) (_option : TrainingOption α) :
    Run (SoftmaxLayer α) :=
  pure s

end SoftmaxLayer

/-! ## Predicates used in the statements -/

/-- The shape invariant: `len(W) == NumInputUnits`, `len(W[j]) == NumHiddenUnits` for
every row, `len(B) == NumHiddenUnits`. -/
def ShapeInvariant (h : HiddenLayer α) : Prop :=
  (h.W.length : Int) = h.NumInputUnits ∧
  (∀ row ∈ h.W, (row.length : Int) = h.NumHiddenUnits) ∧
  (h.B.length : Int) = h.NumHiddenUnits

/-- Every vector of the batch has length `n`. -/
def WellShaped {β : Type} (batch : List (List β)) (n : Int) : Prop :=
  ∀ v ∈ batch, (v.length : Int) = n

instance (h : HiddenLayer α) : Decidable (ShapeInvariant h) := by
  unfold ShapeInvariant
  exact inferInstance

instance {β : Type} (batch : List (List β)) (n : Int) : Decidable (WellShaped batch n) := by
  unfold WellShaped
  exact inferInstance

/-- Squared error `Σ_i (y[i] - t[i])^2` of a prediction against a target. -/
def sqErr (y t : List α) : α :=
  ((List.zipWith (fun a b => (a - b) ^ 2) y t)).sum

/-- One weight after the update step of `Turn` on a batch of size `N`: the gradient
step, followed by the shrink when L2 regularization is on. -/
def turnWeight (option : TrainingOption α) (N : Nat) (w g : α) : α :=
  if option.L2Regularization then
    (w + option.LearningRate * g / (N : α)) * (1 - option.RegularizationRate)
  else w + option.LearningRate * g / (N : α)

/-! ## Concrete layers -/

/-- The layer of the concrete scenario of §8: `W = [[0.5],[0.5]]`, `B = [0.0]`, identity
activation with constant derivative `1`. -/
def scenarioLayer : HiddenLayer ℚ :=
  { W := [[1/2], [1/2]], B := [0], NumInputUnits := 2, NumHiddenUnits := 1,
    f := some (fun x => x), d := some (fun _ => 1) }

/-- A layer without input units, as `NewHiddenLayer(0, 1, f, d)` builds it: `W` has no
row, `B = [1.0]`; it satisfies the shape invariant. -/
def noInputLayer : HiddenLayer ℚ :=
  { W := [], B := [1], NumInputUnits := 0, NumHiddenUnits := 1,
    f := some (fun x => x), d := some (fun _ => 1) }

/-- A softmax layer of size `n` whose bias buffer has been allocated (`len(B) = n`),
unlike the layers built by `NewSoftmaxLayer`. -/
def softmaxWithBias (n : Nat) : SoftmaxLayer α :=
  { W := [], B := List.replicate n 0, NumInputUnits := n, NumHiddenUnits := n,
    f := none, d := none }

/-! ## Construction, and the methods a `SoftmaxLayer` gets from the embedded struct -/

/-- Modelled from the spec: the call `nnet.MakeMatrix(rows, cols)` with `int` arguments.
The allocator of §6 returns "a zero-filled 2D numeric buffer of given dimensions"; no
buffer has a negative dimension, and the call is taken to fail then, as `make` does. -/
def makeMatrixInt {β : Type} [Zero β] (rows cols : Int) : Run (List (List β)) :=
  if 0 ≤ rows ∧ 0 ≤ cols then .ok (MakeMatrix rows.toNat cols.toNat)
  else .error .negativeLen

namespace HiddenLayer

/-- Embeds `Init`.  The random source is a stream: `rand k` is the value that the call
number `k` of `rand.Float64()` returns, and `k` counts the calls made so far; the result
is the receiver after the call together with the new count. -/
def Init (rand : Nat → α) (h : HiddenLayer α) (k : Nat) : Run (HiddenLayer α × Nat) := do
  let st ← loop (fun i st => do
      let wi ← index st.1.W i
      loop (fun j st => do
          let h' ← st.1.setW i j (rand st.2 - 1 / 2)
          pure (h', st.2 + 1))
        wi.length st)
    h.W.length (h, k)
  let h' ← loop (fun j h => h.setB j 1) st.1.B.length st.1
  pure (h', st.2)

end HiddenLayer

/-- Embeds `NewHiddenLayer`; `rand` and `k` are the random source and its call count, as
in `Init`. -/
def NewHiddenLayer (rand : Nat → α) (k : Nat) (numInputUnits numHiddenUnits : Int)
    (f d : Option (α → α)) : Run (HiddenLayer α × Nat) := do
  let W ← makeMatrixInt numInputUnits numHiddenUnits
  let B ← makeSlice numHiddenUnits
  let h : HiddenLayer α :=
    { W := W, B := B, NumInputUnits := numInputUnits, NumHiddenUnits := numHiddenUnits,
      f := none, d := none }
  let (h, k) ← h.Init rand k
  pure ({ h with f := f, d := d }, k)

namespace SoftmaxLayer

/-- The method `BackwardWithTargetBatch` of a `SoftmaxLayer`: `softmax.go` does not
declare it, so the call is the promoted method of the embedded `HiddenLayer`, whose body
calls `h.BackwardWithTarget` on the embedded struct. -/
def BackwardWithTargetBatch (s : SoftmaxLayer α) (predicted target : List (List α)) :
    Run (List (List α) × List (List α)) :=
  s.toHiddenLayer.BackwardWithTargetBatch predicted target

/-- The method `BackwardBatch` of a `SoftmaxLayer`: the promoted method of the embedded
`HiddenLayer`, whose body calls `h.Backward` on the embedded struct. -/
def BackwardBatch (s : SoftmaxLayer α) (predicted accumulateDelta : List (List α)) :
    Run (List (List α) × List (List α)) :=
  s.toHiddenLayer.BackwardBatch predicted accumulateDelta

end SoftmaxLayer

/-- A runtime panic, as opposed to a float division by zero, after which a Go run goes
on with `±Inf` or `NaN`. -/
def Fault.isPanic : Fault → Bool
  | .indexOutOfRange => true
  | .nilFunc => true
  | .negativeLen => true
  | .divByZero => false

/-- A random source with values in `[0, 1)`: the calls return `0, 1/10, ..., 9/10` and
start over. -/
def cycleSource : Nat → ℚ := fun k => ((k % 10 : Nat) : ℚ) / 10

/-! ## The update step over an arbitrary float carrier -/

/-- The arithmetic that `Gradient` and `Turn` use, on a carrier `β` of float values.
Every operation is total, as the operations of `float64` are: a division by zero yields
a value (`NaN` or `±Inf`) and the run goes on. -/
structure FloatOps (β : Type) where
  zero : β
  one : β
  ofNat : Nat → β
  add : β → β → β
  sub : β → β → β
  mul : β → β → β
  div : β → β → β

/-- The operations of the field, with the value of `x / 0` left to the field (it is
immaterial wherever the divisor is not zero). -/
def exactOps : FloatOps α :=
  { zero := 0, one := 1, ofNat := fun n => (n : α), add := fun x y => x + y,
    sub := fun x y => x - y, mul := fun x y => x * y, div := fun x y => x / y }

/-- The operations on the field extended by one non-finite value `none`, which stands for
`NaN` and `±Inf`: a division by zero yields it, and an operation on it yields it. -/
def nonFiniteOps : FloatOps (Option α) :=
  { zero := some 0, one := some 1, ofNat := fun n => some (n : α),
    add := fun a b => a.bind (fun x => b.map (fun y => x + y)),
    sub := fun a b => a.bind (fun x => b.map (fun y => x - y)),
    mul := fun a b => a.bind (fun x => b.map (fun y => x * y)),
    div := fun a b => a.bind (fun x => b.bind (fun y => if y = 0 then none else some (x / y))) }

namespace HiddenLayer

/-- Statement `gradW[j][i] -= v` on the carrier of `ops`. -/
def subAtOn {β : Type} (ops : FloatOps β) (g : List (List β)) (j i : Nat) (v : β) :
    Run (List (List β)) := do
  let gj ← index g j
  let gji ← index gj i
  let gj' ← assign gj i (ops.sub gji v)
  assign g j gj'

/-- Embeds `Gradient` on the carrier of `ops`: the body of `Gradient`, with the
arithmetic of `ops`. -/
def GradientOn {β : Type} (ops : FloatOps β) (h : HiddenLayer β)
    (input deltas : List (List β)) : Run (List (List β) × List β) := do
  let w0 ← index h.W 0
  let gradW : List (List β) := @MakeMatrix β ⟨ops.zero⟩ h.W.length w0.length
  let gradB : List β := List.replicate h.B.length ops.zero
  loop (fun n g =>
      loop (fun i g => do
          let gW ← loop (fun j gW => do
              let dn ← index deltas n
              let dni ← index dn i
              let xn ← index input n
              let xnj ← index xn j
              subAtOn ops gW j i (ops.mul dni xnj))
            h.NumInputUnits.toNat g.1
          let dn ← index deltas n
          let dni ← index dn i
          let bi ← index g.2 i
          let gB ← assign g.2 i (ops.sub bi dni)
          pure (gW, gB))
        h.NumHiddenUnits.toNat g)
    input.length (gradW, gradB)

/-- Embeds `Turn` on the carrier of `ops`: the body of `Turn`, with the arithmetic of
`ops`; the division by `float64(len(batch))` always yields a value and the run goes on. -/
def TurnOn {β : Type} (ops : FloatOps β) (h : HiddenLayer β) (batch deltas : List (List β))
    (option : TrainingOption β) : Run (HiddenLayer β) := do
  let (gradW, gradB) ← h.GradientOn ops batch deltas
  loop (fun i h => do
      let h ← loop (fun j h => do
          let gj ← index gradW j
          let gji ← index gj i
          let q := ops.div (ops.mul option.LearningRate gji) (ops.ofNat batch.length)
          let wj ← index h.W j
          let wji ← index wj i
          let h ← h.setW j i (ops.add wji q)
          if option.L2Regularization then do
            let wj ← index h.W j
            let wji ← index wj i
            h.setW j i (ops.mul wji (ops.sub ops.one option.RegularizationRate))
          else pure h)
        h.NumInputUnits.toNat h
      let gi ← index gradB i
      let q := ops.div (ops.mul option.LearningRate gi) (ops.ofNat batch.length)
      let bi ← index h.B i
      h.setB i (ops.add bi q))
    h.NumHiddenUnits.toNat h

end HiddenLayer

/-- The scenario layer on the carrier with a non-finite value. -/
def scenarioLayerNF : HiddenLayer (Option ℚ) :=
  { W := [[some (1/2)], [some (1/2)]], B := [some 0], NumInputUnits := 2, NumHiddenUnits := 1,
    f := some (fun x => x), d := some (fun _ => some 1) }

/-! ## Reasoning principles for runs, loops and slices -/

section Helpers

variable {β γ : Type}

@[simp] theorem ok_bind (a : β) (k : β → Run γ) : (Except.ok a >>= k) = k a := rfl

@[simp] theorem error_bind (e : Fault) (k : β → Run γ) :
    ((Except.error e : Run β) >>= k) = Except.error e := rfl

@[simp] theorem pure_eq_ok (a : β) : (pure a : Run β) = Except.ok a := rfl

theorem loop_succ {σ : Type} (body : Nat → σ → Run σ) (k : Nat) (s : σ) :
    loop body (k + 1) s = (loop body k s >>= body k) := rfl

/-- A loop whose successive states are known: if `body k` takes `S k` to `S (k+1)` for
every `k < n`, the loop takes `S 0` to `S n`. -/
theorem loop_trace {σ : Type} (body : Nat → σ → Run σ) (n : Nat) (S : Nat → σ)
    (hstep : ∀ k, k < n → body k (S k) = .ok (S (k + 1))) :
    loop body n (S 0) = .ok (S n) := by
  induction n with
  | zero => rfl
  | succ m ih =>
    rw [loop_succ, ih (fun k hk => hstep k (Nat.lt_succ_of_lt hk)), ok_bind]
    exact hstep m (Nat.lt_succ_self m)

@[simp] theorem vec_length (n : Nat) (F : Nat → β) : (vec n F).length = n := by
  simp [vec]

theorem getElem?_vec (n : Nat) (F : Nat → β) (i : Nat) :
    (vec n F)[i]? = if i < n then some (F i) else none := by
  unfold vec
  by_cases h : i < n
  · simp [h, List.getElem?_map, List.getElem?_range h]
  · simp [h, List.getElem?_eq_none (show ((List.range n).map F).length ≤ i by simpa using h)]

theorem vec_congr {n : Nat} {F G : Nat → β} (h : ∀ i, i < n → F i = G i) :
    vec n F = vec n G := by
  apply List.ext_getElem?
  intro i
  rw [getElem?_vec, getElem?_vec]
  by_cases hi : i < n
  · simp [hi, h i hi]
  · simp [hi]

theorem eq_vec_of_length {xs : List β} {n : Nat} (h : xs.length = n) (d : β) :
    xs = vec n (fun i => xs.getD i d) := by
  apply List.ext_getElem?
  intro i
  rw [getElem?_vec]
  by_cases hi : i < n
  · have hi2 : i < xs.length := h ▸ hi
    simp [hi, List.getD_eq_getElem _ _ hi2, List.getElem?_eq_getElem hi2]
  · simp [hi, List.getElem?_eq_none (show xs.length ≤ i by omega)]

theorem replicate_eq_vec (n : Nat) (a : β) : List.replicate n a = vec n (fun _ => a) := by
  apply List.ext_getElem?
  intro i
  rw [getElem?_vec, List.getElem?_replicate]

theorem getD_vec {n i : Nat} (F : Nat → β) (d : β) (h : i < n) : (vec n F).getD i d = F i := by
  rw [List.getD_eq_getElem?_getD, getElem?_vec]
  simp [h]

theorem index_vec {n i : Nat} (F : Nat → β) (h : i < n) : index (vec n F) i = .ok (F i) := by
  unfold index
  rw [getElem?_vec, if_pos h]

theorem index_vec_error {n i : Nat} (F : Nat → β) (h : n ≤ i) :
    index (vec n F) i = .error .indexOutOfRange := by
  unfold index
  rw [getElem?_vec, if_neg (Nat.not_lt.mpr h)]

theorem assign_vec {n i : Nat} (F : Nat → β) (v : β) (h : i < n) :
    assign (vec n F) i v = .ok (vec n (fun k => if k = i then v else F k)) := by
  unfold assign
  rw [if_pos (by simpa using h)]
  congr 1
  apply List.ext_getElem?
  intro k
  rw [List.getElem?_set, getElem?_vec, getElem?_vec]
  by_cases hk : i = k
  · subst hk; simp [h]
  · have hk2 : ¬ k = i := fun e => hk e.symm
    simp [hk, hk2]

theorem index_tab {m n j : Nat} (E : Nat → Nat → β) (h : j < m) :
    index (tab m n E) j = .ok (vec n (E j)) :=
  index_vec _ h

theorem entry_tab [Zero β] {m n j i : Nat} (E : Nat → Nat → β) (hj : j < m) (hi : i < n) :
    entry (tab m n E) j i = E j i := by
  unfold entry tab
  rw [getD_vec _ _ hj, getD_vec _ _ hi]

theorem tab_congr {m n : Nat} {E G : Nat → Nat → β}
    (h : ∀ j i, j < m → i < n → E j i = G j i) : tab m n E = tab m n G :=
  vec_congr (fun j hj => vec_congr (fun i hi => h j i hj hi))

theorem eq_tab_of_shape [Zero β] {g : List (List β)} {m n : Nat} (hm : g.length = m)
    (hn : ∀ row ∈ g, row.length = n) : g = tab m n (entry g) := by
  refine (eq_vec_of_length hm []).trans ?_
  unfold tab
  apply vec_congr
  intro j hj
  have hj2 : j < g.length := hm ▸ hj
  have hrow : (g.getD j []).length = n := by
    rw [List.getD_eq_getElem _ _ hj2]
    exact hn _ (List.getElem_mem hj2)
  exact (eq_vec_of_length hrow 0).trans (vec_congr (fun i _ => rfl))

theorem length_of_eq_tab {g : List (List β)} {m n : Nat} {E : Nat → Nat → β}
    (h : g = tab m n E) : g.length = m ∧ ∀ row ∈ g, row.length = n := by
  subst h
  refine ⟨vec_length _ _, ?_⟩
  intro row hrow
  unfold tab vec at hrow
  rw [List.mem_map] at hrow
  obtain ⟨j, _, rfl⟩ := hrow
  exact vec_length _ _

/-- A loop adding `g j` to an accumulator at step `j` returns the accumulated sum. -/
theorem loop_sum {δ : Type} [AddCommMonoid δ] (n : Nat) (g : Nat → δ) (body : Nat → δ → Run δ)
    (hbody : ∀ j s, j < n → body j s = .ok (s + g j)) (s0 : δ) :
    loop body n s0 = .ok (s0 + ∑ j in Finset.range n, g j) := by
  have := loop_trace body n (fun k => s0 + ∑ j in Finset.range k, g j) (by
    intro k hk
    dsimp only
    rw [hbody k _ hk, Finset.sum_range_succ, add_assoc])
  simpa using this

/-- A loop storing `F i` at index `i` of a slice of length `n`, for every `i < n`,
returns the slice `[F 0, ..., F (n-1)]`. -/
theorem loop_fill (n : Nat) (F F0 : Nat → β) (body : Nat → List β → Run (List β))
    (hbody : ∀ i G, i < n → body i (vec n G) = assign (vec n G) i (F i)) :
    loop body n (vec n F0) = .ok (vec n F) := by
  have h0 : vec n (fun i => if i < 0 then F i else F0 i) = vec n F0 :=
    vec_congr (by intro i _; simp)
  have hn : vec n (fun i => if i < n then F i else F0 i) = vec n F :=
    vec_congr (by intro i hi; simp [hi])
  have := loop_trace body n (fun k => vec n (fun i => if i < k then F i else F0 i)) (by
    intro k hk
    dsimp only
    rw [hbody k _ hk, assign_vec _ _ hk]
    congr 1
    apply vec_congr
    intro i _
    by_cases h1 : i = k
    · subst h1; simp
    · by_cases h2 : i < k
      · simp [h1, h2, Nat.lt_succ_of_lt h2]
      · have h3 : ¬ i < k + 1 := by omega
        simp [h1, h2, h3])
  dsimp only at this
  rw [h0, hn] at this
  exact this

end Helpers


/-! ## Dense layer: forward pass, back-projection and deltas -/

section Dense

theorem toNat_of_cast_eq {n : Nat} {z : Int} (h : (n : Int) = z) : z.toNat = n := by
  subst h
  exact Int.toNat_natCast n

theorem makeSlice_cast (n : Nat) : (makeSlice (n : Int) : Run (List α)) = .ok (vec n (fun _ => 0)) := by
  unfold makeSlice
  rw [if_pos (Int.natCast_nonneg n), Int.toNat_natCast, replicate_eq_vec]

theorem Forward_tab (m n : Nat) (E : Nat → Nat → α) (b x : Nat → α) (f : α → α)
    (NI NH : Int) (d : Option (α → α)) :
    HiddenLayer.Forward ⟨tab m n E, vec n b, NI, NH, some f, d⟩ (vec m x)
      = .ok (vec n (fun i => f ((∑ j in Finset.range m, E j i * x j) + b i))) := by
  unfold HiddenLayer.Forward
  simp only [vec_length, replicate_eq_vec]
  apply loop_fill
  intro i G hi
  rw [loop_sum m (fun j => E j i * x j)]
  · simp only [ok_bind, index_vec _ hi, call, zero_add]
  · intro j s hj
    simp only [index_tab _ hj, index_vec _ hi, index_vec _ hj, ok_bind, pure_eq_ok]

theorem AccumulateDelta_tab (m n : Nat) (E : Nat → Nat → α) (dl : Nat → α) (k : Nat)
    (B : List α) (f d : Option (α → α)) :
    HiddenLayer.AccumulateDelta ⟨tab m n E, B, (m : Int), (n : Int), f, d⟩ (vec (n + k) dl)
      = .ok (vec m (fun j => ∑ i in Finset.range n, dl i * E j i)) := by
  unfold HiddenLayer.AccumulateDelta
  simp only [makeSlice_cast, ok_bind, vec_length, Int.toNat_natCast]
  apply loop_fill
  intro j G hj
  rw [loop_sum n (fun i => dl i * E j i)]
  · simp only [ok_bind, zero_add]
  · intro i s hi
    simp only [index_tab _ hj, index_vec _ hi, index_vec _ (Nat.lt_add_right k hi), ok_bind,
      pure_eq_ok]

theorem BackwardWithTarget_vec (n : Nat) (p t : Nat → α) (kp kt : Nat) (d : α → α)
    (W : List (List α)) (B : List α) (NI : Int) (f : Option (α → α)) :
    HiddenLayer.BackwardWithTarget ⟨W, B, NI, (n : Int), f, some d⟩ (vec (n + kp) p)
        (vec (n + kt) t)
      = .ok (vec n (fun i => (p i - t i) * d (p i))) := by
  unfold HiddenLayer.BackwardWithTarget
  simp only [makeSlice_cast, ok_bind, Int.toNat_natCast]
  apply loop_fill
  intro i G hi
  simp only [index_vec _ (Nat.lt_add_right kp hi), index_vec _ (Nat.lt_add_right kt hi), call,
    ok_bind]

end Dense

/-- C1: for a layer whose `W` is `numInputUnits × numHiddenUnits` and whose `B` has length
`numHiddenUnits`, `Forward` on an input of length `numInputUnits` returns a vector of
length `numHiddenUnits` whose `i`-th component is
`f((Σ_j W[j][i] * input[j]) + B[i])`, `f` being the layer's forward function. -/
theorem HiddenLayer.Forward_spec (h : HiddenLayer α) (f : α → α) (input : List α)
    (hf : h.f = some f)
    (hW : (h.W.length : Int) = h.NumInputUnits)
    (hrow : ∀ row ∈ h.W, (row.length : Int) = h.NumHiddenUnits)
    (hB : (h.B.length : Int) = h.NumHiddenUnits)
    (hin : (input.length : Int) = h.NumInputUnits) :
    ∃ out, h.Forward input = .ok out ∧ (out.length : Int) = h.NumHiddenUnits ∧
      ∀ i : Nat, (i : Int) < h.NumHiddenUnits →
        out[i]? = some (f ((∑ j in Finset.range h.NumInputUnits.toNat,
          entry h.W j i * input.getD j 0) + h.B.getD i 0)) := by
  obtain ⟨W, B, NI, NH, f', d⟩ := h
  simp only at hf hW hrow hB hin
  subst hf
  have hm : W.length = input.length := by omega
  have hn : ∀ row ∈ W, row.length = B.length := fun row hr => by
    have := hrow row hr
    omega
  have hWt := eq_tab_of_shape hm hn
  have hBt := eq_vec_of_length (rfl : B.length = B.length) 0
  have hxt := eq_vec_of_length (rfl : input.length = input.length) 0
  have key := Forward_tab input.length B.length (entry W) (fun i => B.getD i 0)
    (fun j => input.getD j 0) f NI NH d
  rw [← hWt, ← hBt, ← hxt] at key
  refine ⟨_, key, ?_, ?_⟩
  · simpa using hB
  · intro i hi
    simp only at hi
    have hi2 : i < B.length := by omega
    rw [getElem?_vec, if_pos hi2, toNat_of_cast_eq hin]

/-- Witness of C1 on the concrete scenario of §8: `Forward([1.0, 1.0]) == [1.0]`. -/
theorem HiddenLayer.Forward_spec_witness :
    scenarioLayer.Forward [1, 1] = .ok [1] ∧
    ∃ out, scenarioLayer.Forward [1, 1] = .ok out ∧
      (out.length : Int) = scenarioLayer.NumHiddenUnits ∧
      ∀ i : Nat, (i : Int) < scenarioLayer.NumHiddenUnits →
        out[i]? = some ((fun x : ℚ => x)
          ((∑ j in Finset.range scenarioLayer.NumInputUnits.toNat,
            entry scenarioLayer.W j i * ([1, 1] : List ℚ).getD j 0)
            + scenarioLayer.B.getD i 0)) :=
  ⟨by norm_num [scenarioLayer, HiddenLayer.Forward, loop, index, assign, call],
   HiddenLayer.Forward_spec scenarioLayer (fun x => x) [1, 1] rfl rfl
    (by simp [scenarioLayer]) rfl rfl⟩

/-- C2: for a layer whose `W` is `numInputUnits × numHiddenUnits`, `AccumulateDelta` on a
delta of length `numHiddenUnits` returns a vector of length `numInputUnits` whose `j`-th
component is `Σ_i delta[i] * W[j][i]`. -/
theorem HiddenLayer.AccumulateDelta_spec (h : HiddenLayer α) (deltas : List α)
    (hW : (h.W.length : Int) = h.NumInputUnits)
    (hrow : ∀ row ∈ h.W, (row.length : Int) = h.NumHiddenUnits)
    (hd : (deltas.length : Int) = h.NumHiddenUnits) :
    ∃ acc, h.AccumulateDelta deltas = .ok acc ∧ (acc.length : Int) = h.NumInputUnits ∧
      ∀ j : Nat, (j : Int) < h.NumInputUnits →
        acc[j]? = some (∑ i in Finset.range h.NumHiddenUnits.toNat,
          deltas.getD i 0 * entry h.W j i) := by
  obtain ⟨W, B, NI, NH, f, d⟩ := h
  simp only at hW hrow hd
  subst hW hd
  have hn : ∀ row ∈ W, row.length = deltas.length := fun row hr => by
    have := hrow row hr
    omega
  have hWt := eq_tab_of_shape rfl hn
  have hdt := eq_vec_of_length (rfl : deltas.length = deltas.length) 0
  have key := AccumulateDelta_tab W.length deltas.length (entry W) (fun i => deltas.getD i 0) 0
    B f d
  rw [Nat.add_zero, ← hWt, ← hdt] at key
  refine ⟨_, key, by simp, ?_⟩
  intro j hj
  simp only at hj
  have hj2 : j < W.length := by omega
  rw [getElem?_vec, if_pos hj2, Int.toNat_natCast]

/-- Witness of C2 on the concrete scenario of §8: `AccumulateDelta([1.0]) == [0.5, 0.5]`. -/
theorem HiddenLayer.AccumulateDelta_spec_witness :
    scenarioLayer.AccumulateDelta [1] = .ok [1/2, 1/2] ∧
    ∃ acc, scenarioLayer.AccumulateDelta [1] = .ok acc ∧
      (acc.length : Int) = scenarioLayer.NumInputUnits ∧
      ∀ j : Nat, (j : Int) < scenarioLayer.NumInputUnits →
        acc[j]? = some (∑ i in Finset.range scenarioLayer.NumHiddenUnits.toNat,
          ([1] : List ℚ).getD i 0 * entry scenarioLayer.W j i) :=
  ⟨by norm_num [scenarioLayer, HiddenLayer.AccumulateDelta, makeSlice, loop, index, assign,
      List.replicate],
   HiddenLayer.AccumulateDelta_spec scenarioLayer [1] rfl (by simp [scenarioLayer]) rfl⟩

/-- C3: for predicted and target of length `numHiddenUnits`, `BackwardWithTarget` returns
a vector of length `numHiddenUnits` with
`delta[i] = (predicted[i] - target[i]) * d(predicted[i])`, `d` being the layer's
derivative function. -/
theorem HiddenLayer.BackwardWithTarget_spec (h : HiddenLayer α) (d : α → α)
    (predicted target : List α) (hd : h.d = some d)
    (hp : (predicted.length : Int) = h.NumHiddenUnits)
    (ht : (target.length : Int) = h.NumHiddenUnits) :
    ∃ delta, h.BackwardWithTarget predicted target = .ok delta ∧
      (delta.length : Int) = h.NumHiddenUnits ∧
      ∀ i : Nat, (i : Int) < h.NumHiddenUnits →
        delta[i]? = some ((predicted.getD i 0 - target.getD i 0) * d (predicted.getD i 0)) := by
  obtain ⟨W, B, NI, NH, f, d'⟩ := h
  simp only at hd hp ht
  subst hd hp
  have hlen : target.length = predicted.length := by omega
  have hpt := eq_vec_of_length (rfl : predicted.length = predicted.length) 0
  have htt := eq_vec_of_length hlen 0
  have key := BackwardWithTarget_vec predicted.length (fun i => predicted.getD i 0)
    (fun i => target.getD i 0) 0 0 d W B NI f
  rw [Nat.add_zero, ← hpt, ← htt] at key
  refine ⟨_, key, by simp, ?_⟩
  intro i hi
  simp only at hi
  have hi2 : i < predicted.length := by omega
  rw [getElem?_vec, if_pos hi2]

/-- Witness of C3 on the concrete scenario of §8: with `d(y) = 1`,
`BackwardWithTarget([1.0], [0.0]) == [1.0]`. -/
theorem HiddenLayer.BackwardWithTarget_spec_witness :
    scenarioLayer.BackwardWithTarget [1] [0] = .ok [1] ∧
    ∃ delta, scenarioLayer.BackwardWithTarget [1] [0] = .ok delta ∧
      (delta.length : Int) = scenarioLayer.NumHiddenUnits ∧
      ∀ i : Nat, (i : Int) < scenarioLayer.NumHiddenUnits →
        delta[i]? = some ((([1] : List ℚ).getD i 0 - ([0] : List ℚ).getD i 0)
          * (fun _ : ℚ => (1 : ℚ)) (([1] : List ℚ).getD i 0)) :=
  ⟨by norm_num [scenarioLayer, HiddenLayer.BackwardWithTarget, makeSlice, loop, index, assign,
      call, List.replicate],
   HiddenLayer.BackwardWithTarget_spec scenarioLayer (fun _ => 1) [1] [0] rfl rfl rfl⟩


/-! ## Dense layer: gradient -/

section GradientLemmas

theorem index_getD {β : Type} {xs : List β} {i : Nat} (h : i < xs.length) (d : β) :
    index xs i = .ok (xs.getD i d) := by
  unfold index
  rw [List.getElem?_eq_getElem h, List.getD_eq_getElem _ _ h]

theorem index_error {β : Type} {xs : List β} {i : Nat} (h : xs.length ≤ i) :
    index xs i = .error .indexOutOfRange := by
  unfold index
  rw [List.getElem?_eq_none h]

theorem subAt_tab {m n j i : Nat} (E : Nat → Nat → α) (v : α) (hj : j < m) (hi : i < n) :
    HiddenLayer.subAt (tab m n E) j i v
      = .ok (tab m n (fun j' i' => if j' = j ∧ i' = i then E j' i' - v else E j' i')) := by
  unfold HiddenLayer.subAt
  simp only [index_tab _ hj, index_vec _ hi, assign_vec _ _ hi, ok_bind]
  unfold tab
  rw [assign_vec _ _ hj]
  congr 1
  apply vec_congr
  intro j' _
  by_cases h1 : j' = j
  · subst h1
    simp only [if_true, true_and]
    apply vec_congr
    intro i' _
    by_cases h2 : i' = i
    · subst h2; simp
    · simp [h2]
  · simp [h1]

/-- The innermost loop of `Gradient`: column `i0` of the matrix loses `c j` in row `j`. -/
theorem loop_subAt_col (m n i0 : Nat) (hi0 : i0 < n) (c : Nat → α)
    (body : Nat → List (List α) → Run (List (List α)))
    (hbody : ∀ j G, j < m → body j (tab m n G) = HiddenLayer.subAt (tab m n G) j i0 (c j))
    (G : Nat → Nat → α) :
    loop body m (tab m n G)
      = .ok (tab m n (fun j i => if i = i0 then G j i - c j else G j i)) := by
  have h0 : tab m n (fun j i => if i = i0 ∧ j < 0 then G j i - c j else G j i) = tab m n G :=
    tab_congr (by intro j i _ _; simp)
  have hm : tab m n (fun j i => if i = i0 ∧ j < m then G j i - c j else G j i)
      = tab m n (fun j i => if i = i0 then G j i - c j else G j i) :=
    tab_congr (by intro j i hj _; simp [hj])
  have := loop_trace body m
    (fun k => tab m n (fun j i => if i = i0 ∧ j < k then G j i - c j else G j i)) (by
      intro k hk
      dsimp only
      rw [hbody k _ hk, subAt_tab _ _ hk hi0]
      congr 1
      apply tab_congr
      intro j i _ _
      by_cases h1 : i = i0
      · by_cases h2 : j = k
        · subst h1 h2; simp
        · by_cases h3 : j < k
          · simp [h1, h2, h3, Nat.lt_succ_of_lt h3]
          · have h4 : ¬ j < k + 1 := by omega
            simp [h1, h2, h3, h4]
      · simp [h1])
  dsimp only at this
  rw [h0, hm] at this
  exact this

theorem MakeMatrix_eq_tab (m n : Nat) :
    (MakeMatrix m n : List (List α)) = tab m n (fun _ _ => 0) := by
  unfold MakeMatrix tab
  rw [replicate_eq_vec, replicate_eq_vec]

/-- The gradient of a well-formed layer on a batch whose vectors are long enough. -/
theorem Gradient_tab (m n : Nat) (hm : 0 < m) (E : Nat → Nat → α) (b : Nat → α)
    (f d : Option (α → α)) (input deltas : List (List α))
    (hN : input.length ≤ deltas.length)
    (hx : ∀ k, k < input.length → m ≤ (input.getD k []).length)
    (hd : ∀ k, k < input.length → n ≤ (deltas.getD k []).length) :
    HiddenLayer.Gradient ⟨tab m n E, vec n b, (m : Int), (n : Int), f, d⟩ input deltas
      = .ok (tab m n (fun j i => -∑ k in Finset.range input.length,
                entry deltas k i * entry input k j),
             vec n (fun i => -∑ k in Finset.range input.length, entry deltas k i)) := by
  unfold HiddenLayer.Gradient
  simp only [index_tab _ hm, ok_bind, vec_length, Int.toNat_natCast, MakeMatrix_eq_tab,
    replicate_eq_vec]
  unfold tab
  rw [vec_length]
  change loop _ _ (tab m n (fun _ _ => 0), vec n (fun _ => 0)) = _
  have h0 : ((tab m n (fun _ _ => 0), vec n (fun _ => 0)) : List (List α) × List α)
      = (tab m n (fun j i => -∑ k in Finset.range 0, entry deltas k i * entry input k j),
         vec n (fun i => -∑ k in Finset.range 0, entry deltas k i)) := by
    simp
  rw [h0]
  apply loop_trace _ input.length
    (fun N => ((tab m n (fun j i => -∑ k in Finset.range N, entry deltas k i * entry input k j),
         vec n (fun i => -∑ k in Finset.range N, entry deltas k i)) : List (List α) × List α))
  intro k hk
  dsimp only
  have hdk : index deltas k = .ok (deltas.getD k []) := index_getD (by omega) []
  have hxk : index input k = .ok (input.getD k []) := index_getD hk []
  have hdki : ∀ i, i < n → index (deltas.getD k []) i = .ok (entry deltas k i) :=
    fun i hi => index_getD (by have := hd k hk; omega) 0
  have hxkj : ∀ j, j < m → index (input.getD k []) j = .ok (entry input k j) :=
    fun j hj => index_getD (by have := hx k hk; omega) 0
  -- the loop over the hidden units for sample `k`
  have h1 : ((tab m n (fun j i => -∑ k in Finset.range k, entry deltas k i * entry input k j),
         vec n (fun i => -∑ k in Finset.range k, entry deltas k i)) : List (List α) × List α)
      = (tab m n (fun j i => (-∑ k in Finset.range k, entry deltas k i * entry input k j)
            - if i < 0 then entry deltas k i * entry input k j else 0),
         vec n (fun i => (-∑ k in Finset.range k, entry deltas k i)
            - if i < 0 then entry deltas k i else 0)) := by
    simp
  have h2 : ((tab m n (fun j i => -∑ k in Finset.range (k + 1),
            entry deltas k i * entry input k j),
         vec n (fun i => -∑ k in Finset.range (k + 1), entry deltas k i))
          : List (List α) × List α)
      = (tab m n (fun j i => (-∑ k in Finset.range k, entry deltas k i * entry input k j)
            - if i < n then entry deltas k i * entry input k j else 0),
         vec n (fun i => (-∑ k in Finset.range k, entry deltas k i)
            - if i < n then entry deltas k i else 0)) := by
    congr 1
    · apply tab_congr
      intro j i _ hi
      rw [if_pos hi, Finset.sum_range_succ]
      ring
    · apply vec_congr
      intro i hi
      rw [if_pos hi, Finset.sum_range_succ]
      ring
  rw [h1, h2]
  apply loop_trace _ n
    (fun i0 => ((tab m n (fun j i =>
            (-∑ k in Finset.range k, entry deltas k i * entry input k j)
            - if i < i0 then entry deltas k i * entry input k j else 0),
         vec n (fun i => (-∑ k in Finset.range k, entry deltas k i)
            - if i < i0 then entry deltas k i else 0)) : List (List α) × List α))
  intro i0 hi0
  dsimp only
  rw [loop_subAt_col m n i0 hi0 (fun j => entry deltas k i0 * entry input k j)]
  · simp only [ok_bind, hdk, hdki i0 hi0, index_vec _ hi0, assign_vec _ _ hi0, pure_eq_ok]
    congr 2
    · apply tab_congr
      intro j i _ _
      by_cases e1 : i = i0
      · subst e1; simp
      · by_cases e2 : i < i0
        · simp [e1, e2, Nat.lt_succ_of_lt e2]
        · have e3 : ¬ i < i0 + 1 := by omega
          simp [e1, e2, e3]
    · apply vec_congr
      intro i _
      by_cases e1 : i = i0
      · subst e1; simp
      · by_cases e2 : i < i0
        · simp [e1, e2, Nat.lt_succ_of_lt e2]
        · have e3 : ¬ i < i0 + 1 := by omega
          simp [e1, e2, e3]
  · intro j G hj
    simp only [ok_bind, hdk, hdki i0 hi0, hxk, hxkj j hj]

end GradientLemmas

section ShapeLemmas

theorem eq_of_shape (h : HiddenLayer α) (hs : ShapeInvariant h) :
    h = ⟨tab h.W.length h.B.length (entry h.W), vec h.B.length (fun i => h.B.getD i 0),
          (h.W.length : Int), (h.B.length : Int), h.f, h.d⟩ := by
  obtain ⟨W, B, NI, NH, f, d⟩ := h
  obtain ⟨h1, h2, h3⟩ := hs
  simp only at h1 h2 h3
  subst h1 h3
  have hn : ∀ row ∈ W, row.length = B.length := fun row hr => by
    have := h2 row hr
    omega
  simp only
  rw [← eq_tab_of_shape rfl hn, ← eq_vec_of_length rfl 0]

theorem getElem?_tab {β : Type} {m n j : Nat} (E : Nat → Nat → β) (h : j < m) :
    (tab m n E)[j]? = some (vec n (E j)) := by
  unfold tab
  rw [getElem?_vec, if_pos h]

theorem getD_length_of_wellShaped {β : Type} {batch : List (List β)} {n : Int} {m : Nat}
    (hb : WellShaped batch n) (hn : (m : Int) = n) (k : Nat) (hk : k < batch.length) :
    (batch.getD k []).length = m := by
  rw [List.getD_eq_getElem _ _ hk]
  have := hb _ (List.getElem_mem hk)
  omega

end ShapeLemmas

/-- C4 (as stated) fails on a layer without input units: the layer `noInputLayer`
satisfies the shape invariant and the batch is well shaped, yet `Gradient` stops with an
index out of range at `h.W[0]` instead of returning `([], [-1])`. -/
theorem HiddenLayer.Gradient_noInputLayer :
    ShapeInvariant noInputLayer ∧
    WellShaped ([[]] : List (List ℚ)) noInputLayer.NumInputUnits ∧
    WellShaped ([[1]] : List (List ℚ)) noInputLayer.NumHiddenUnits ∧
    ([[]] : List (List ℚ)).length = ([[1]] : List (List ℚ)).length ∧
    noInputLayer.Gradient [[]] [[1]] = .error .indexOutOfRange := by
  refine ⟨⟨rfl, ?_, rfl⟩, ?_, ?_, rfl, rfl⟩
  · intro row hrow
    simp [noInputLayer] at hrow
  · intro v hv
    simp only [List.mem_singleton] at hv
    subst hv
    rfl
  · intro v hv
    simp only [List.mem_singleton] at hv
    subst hv
    rfl

/-- C4 (amended): for every layer satisfying the shape invariant with at least one input
unit, and every input batch and delta batch of equal length `N` (input vectors of length
`numInputUnits`, delta vectors of length `numHiddenUnits`), `Gradient` returns
`(gradW, gradB)` with `gradW` of dimensions `numInputUnits × numHiddenUnits`,
`gradW[j][i] = -(Σ_{n<N} deltas[n][i] * input[n][j])`, and `gradB` of length
`numHiddenUnits` with `gradB[i] = -(Σ_{n<N} deltas[n][i])`. -/
theorem HiddenLayer.Gradient_spec (h : HiddenLayer α) (input deltas : List (List α))
    (hs : ShapeInvariant h) (hpos : 1 ≤ h.NumInputUnits)
    (hN : input.length = deltas.length)
    (hx : WellShaped input h.NumInputUnits) (hd : WellShaped deltas h.NumHiddenUnits) :
    ∃ gradW gradB, h.Gradient input deltas = .ok (gradW, gradB) ∧
      (gradW.length : Int) = h.NumInputUnits ∧
      (∀ row ∈ gradW, (row.length : Int) = h.NumHiddenUnits) ∧
      (gradB.length : Int) = h.NumHiddenUnits ∧
      (∀ j i : Nat, (j : Int) < h.NumInputUnits → (i : Int) < h.NumHiddenUnits →
        ∃ row, gradW[j]? = some row ∧
          row[i]? = some (-∑ k in Finset.range input.length,
            entry deltas k i * entry input k j)) ∧
      (∀ i : Nat, (i : Int) < h.NumHiddenUnits →
        gradB[i]? = some (-∑ k in Finset.range input.length, entry deltas k i)) := by
  have hm : 0 < h.W.length := by have := hs.1; omega
  have key := Gradient_tab (α := α) h.W.length h.B.length hm (entry h.W)
    (fun i => h.B.getD i 0) h.f h.d input deltas (le_of_eq hN)
    (fun k hk => le_of_eq (getD_length_of_wellShaped hx hs.1 k hk).symm)
    (fun k hk => le_of_eq (getD_length_of_wellShaped hd hs.2.2 k (hN ▸ hk)).symm)
  rw [← eq_of_shape h hs] at key
  refine ⟨_, _, key, ?_, ?_, ?_, ?_, ?_⟩
  · rw [(length_of_eq_tab rfl).1]; exact hs.1
  · intro row hrow
    rw [(length_of_eq_tab rfl).2 row hrow]; exact hs.2.2
  · rw [vec_length]; exact hs.2.2
  · intro j i hj hi
    have hj2 : j < h.W.length := by have := hs.1; omega
    have hi2 : i < h.B.length := by have := hs.2.2; omega
    exact ⟨_, getElem?_tab _ hj2, by rw [getElem?_vec, if_pos hi2]⟩
  · intro i hi
    have hi2 : i < h.B.length := by have := hs.2.2; omega
    rw [getElem?_vec, if_pos hi2]

/-- Witness of C4 (amended) on the scenario layer with the single sample `[1, 1]` and
delta `[1]`: the gradient is `([[-1], [-1]], [-1])`. -/
theorem HiddenLayer.Gradient_spec_witness :
    scenarioLayer.Gradient [[1, 1]] [[1]] = .ok ([[-1], [-1]], [-1]) ∧
    ∃ gradW gradB, scenarioLayer.Gradient [[1, 1]] [[1]] = .ok (gradW, gradB) ∧
      (gradW.length : Int) = scenarioLayer.NumInputUnits ∧
      (∀ row ∈ gradW, (row.length : Int) = scenarioLayer.NumHiddenUnits) ∧
      (gradB.length : Int) = scenarioLayer.NumHiddenUnits ∧
      (∀ j i : Nat, (j : Int) < scenarioLayer.NumInputUnits →
        (i : Int) < scenarioLayer.NumHiddenUnits →
        ∃ row, gradW[j]? = some row ∧
          row[i]? = some (-∑ k in Finset.range ([[1, 1]] : List (List ℚ)).length,
            entry ([[1]] : List (List ℚ)) k i * entry ([[1, 1]] : List (List ℚ)) k j)) ∧
      (∀ i : Nat, (i : Int) < scenarioLayer.NumHiddenUnits →
        gradB[i]? = some (-∑ k in Finset.range ([[1, 1]] : List (List ℚ)).length,
          entry ([[1]] : List (List ℚ)) k i)) :=
  ⟨by norm_num [scenarioLayer, HiddenLayer.Gradient, HiddenLayer.subAt, MakeMatrix, loop, index,
      assign, List.replicate],
   HiddenLayer.Gradient_spec scenarioLayer [[1, 1]] [[1]]
    ⟨rfl, by simp [scenarioLayer], rfl⟩ (by decide) rfl
    (by intro v hv; simp only [List.mem_singleton] at hv; subst hv; rfl)
    (by intro v hv; simp only [List.mem_singleton] at hv; subst hv; rfl)⟩

/-! ## Dense layer: the update step -/

section TurnLemmas

theorem fdiv_ok {x y : α} (hy : y ≠ 0) : fdiv x y = .ok (x / y) := by
  unfold fdiv
  rw [if_neg hy]

theorem fdiv_zero (x : α) : fdiv x (0 : α) = .error .divByZero := by
  unfold fdiv
  rw [if_pos rfl]

theorem setW_tab {β : Type} {m n j i : Nat} (E : Nat → Nat → β) (B : List β) (NI NH : Int)
    (f d : Option (β → β)) (v : β) (hj : j < m) (hi : i < n) :
    HiddenLayer.setW ⟨tab m n E, B, NI, NH, f, d⟩ j i v
      = .ok ⟨tab m n (fun j' i' => if j' = j ∧ i' = i then v else E j' i'), B, NI, NH, f, d⟩ := by
  unfold HiddenLayer.setW
  simp only [index_tab _ hj, assign_vec _ _ hi, ok_bind, pure_eq_ok]
  unfold tab
  rw [assign_vec _ _ hj]
  simp only [ok_bind]
  congr 2
  apply vec_congr
  intro j' _
  by_cases h1 : j' = j
  · subst h1
    simp only [if_true, true_and]
  · simp [h1]

theorem setB_vec {β : Type} {n i : Nat} (W : List (List β)) (b : Nat → β) (NI NH : Int)
    (f d : Option (β → β)) (v : β) (hi : i < n) :
    HiddenLayer.setB ⟨W, vec n b, NI, NH, f, d⟩ i v
      = .ok ⟨W, vec n (fun k => if k = i then v else b k), NI, NH, f, d⟩ := by
  unfold HiddenLayer.setB
  simp only [assign_vec _ _ hi, ok_bind, pure_eq_ok]

/-- The update step on a well-formed layer, given the gradient of a non-empty batch. -/
theorem Turn_tab (m n : Nat) (E : Nat → Nat → α) (b : Nat → α) (f d : Option (α → α))
    (batch deltas : List (List α)) (option : TrainingOption α) (GW : Nat → Nat → α)
    (GB : Nat → α) (hne : batch.length ≠ 0)
    (hG : HiddenLayer.Gradient ⟨tab m n E, vec n b, (m : Int), (n : Int), f, d⟩ batch deltas
      = .ok (tab m n GW, vec n GB)) :
    HiddenLayer.Turn ⟨tab m n E, vec n b, (m : Int), (n : Int), f, d⟩ batch deltas option
      = .ok ⟨tab m n (fun j i => turnWeight option batch.length (E j i) (GW j i)),
             vec n (fun i => b i + option.LearningRate * GB i / (batch.length : α)),
             (m : Int), (n : Int), f, d⟩ := by
  have hN : (batch.length : α) ≠ 0 := Nat.cast_ne_zero.mpr hne
  unfold HiddenLayer.Turn
  rw [hG]
  simp only [ok_bind, Int.toNat_natCast]
  have h0 : (⟨tab m n E, vec n b, (m : Int), (n : Int), f, d⟩ : HiddenLayer α)
      = ⟨tab m n (fun j i => if i < 0 then turnWeight option batch.length (E j i) (GW j i)
            else E j i),
         vec n (fun i => if i < 0 then b i + option.LearningRate * GB i / (batch.length : α)
            else b i), (m : Int), (n : Int), f, d⟩ := by
    simp
  have hn : (⟨tab m n (fun j i => turnWeight option batch.length (E j i) (GW j i)),
             vec n (fun i => b i + option.LearningRate * GB i / (batch.length : α)),
             (m : Int), (n : Int), f, d⟩ : HiddenLayer α)
      = ⟨tab m n (fun j i => if i < n then turnWeight option batch.length (E j i) (GW j i)
            else E j i),
         vec n (fun i => if i < n then b i + option.LearningRate * GB i / (batch.length : α)
            else b i), (m : Int), (n : Int), f, d⟩ := by
    congr 1
    · exact tab_congr (by intro j i _ hi; rw [if_pos hi])
    · exact vec_congr (by intro i hi; rw [if_pos hi])
  rw [hn]
  conv_lhs => rw [h0]
  apply loop_trace _ n (fun i0 =>
    (⟨tab m n (fun j i => if i < i0 then turnWeight option batch.length (E j i) (GW j i)
            else E j i),
         vec n (fun i => if i < i0 then b i + option.LearningRate * GB i / (batch.length : α)
            else b i), (m : Int), (n : Int), f, d⟩ : HiddenLayer α))
  intro i0 hi0
  dsimp only
  rw [Int.toNat_natCast]
  -- the loop over the input units for hidden unit `i0`
  have inner : ∀ (G : Nat → Nat → α) (Bv : List α),
      loop (fun j (h : HiddenLayer α) => do
          let gj ← index (tab m n GW) j
          let gji ← index gj i0
          let q ← fdiv (option.LearningRate * gji) (batch.length : α)
          let wj ← index h.W j
          let wji ← index wj i0
          let h ← h.setW j i0 (wji + q)
          if option.L2Regularization then do
            let wj ← index h.W j
            let wji ← index wj i0
            h.setW j i0 (wji * (1 - option.RegularizationRate))
          else pure h) m ⟨tab m n G, Bv, (m : Int), (n : Int), f, d⟩
      = .ok ⟨tab m n (fun j i => if i = i0 then
              turnWeight option batch.length (G j i) (GW j i) else G j i),
            Bv, (m : Int), (n : Int), f, d⟩ := by
    intro G Bv
    have g0 : (⟨tab m n G, Bv, (m : Int), (n : Int), f, d⟩ : HiddenLayer α)
        = ⟨tab m n (fun j i => if i = i0 ∧ j < 0 then
              turnWeight option batch.length (G j i) (GW j i) else G j i),
            Bv, (m : Int), (n : Int), f, d⟩ := by
      simp
    have gm : (⟨tab m n (fun j i => if i = i0 then
              turnWeight option batch.length (G j i) (GW j i) else G j i),
            Bv, (m : Int), (n : Int), f, d⟩ : HiddenLayer α)
        = ⟨tab m n (fun j i => if i = i0 ∧ j < m then
              turnWeight option batch.length (G j i) (GW j i) else G j i),
            Bv, (m : Int), (n : Int), f, d⟩ := by
      congr 1
      exact tab_congr (by intro j i hj _; simp [hj])
    rw [gm]
    conv_lhs => rw [g0]
    apply loop_trace _ m (fun j0 =>
      (⟨tab m n (fun j i => if i = i0 ∧ j < j0 then
              turnWeight option batch.length (G j i) (GW j i) else G j i),
            Bv, (m : Int), (n : Int), f, d⟩ : HiddenLayer α))
    intro j0 hj0
    dsimp only
    simp only [index_tab _ hj0, index_vec _ hi0, fdiv_ok hN, ok_bind, setW_tab _ _ _ _ _ _ _ hj0 hi0]
    cases hL : option.L2Regularization
    · simp only [Bool.false_eq_true, if_false, pure_eq_ok]
      congr 2
      apply tab_congr
      intro j i _ _
      by_cases e1 : i = i0
      · by_cases e2 : j = j0
        · subst e1 e2; simp [turnWeight, hL]
        · by_cases e3 : j < j0
          · simp [e1, e2, e3, Nat.lt_succ_of_lt e3]
          · have e4 : ¬ j < j0 + 1 := by omega
            simp [e1, e2, e3, e4]
      · simp [e1]
    · simp only [if_true, index_tab _ hj0, index_vec _ hi0, ok_bind,
        setW_tab _ _ _ _ _ _ _ hj0 hi0]
      congr 2
      apply tab_congr
      intro j i _ _
      by_cases e1 : i = i0
      · by_cases e2 : j = j0
        · subst e1 e2; simp [turnWeight, hL]
        · by_cases e3 : j < j0
          · simp [e1, e2, e3, Nat.lt_succ_of_lt e3]
          · have e4 : ¬ j < j0 + 1 := by omega
            simp [e1, e2, e3, e4]
      · simp [e1]
  rw [inner]
  simp only [ok_bind, index_vec _ hi0, fdiv_ok hN, setB_vec _ _ _ _ _ _ _ hi0]
  congr 2
  · apply tab_congr
    intro j i _ _
    by_cases e1 : i = i0
    · subst e1; simp
    · by_cases e2 : i < i0
      · simp [e1, e2, Nat.lt_succ_of_lt e2]
      · have e3 : ¬ i < i0 + 1 := by omega
        simp [e1, e2, e3]
  · apply vec_congr
    intro i _
    by_cases e1 : i = i0
    · subst e1; simp
    · by_cases e2 : i < i0
      · simp [e1, e2, Nat.lt_succ_of_lt e2]
      · have e3 : ¬ i < i0 + 1 := by omega
        simp [e1, e2, e3]

end TurnLemmas

/-- C5 (as stated) fails on a layer without input units: `noInputLayer` satisfies the
shape invariant, the one-sample batch `[[]]` is non-empty and well shaped and `[[1]]` are
matching deltas, yet `Turn` stops with an index out of range (in `Gradient`, at `h.W[0]`)
instead of updating the bias. -/
theorem HiddenLayer.Turn_noInputLayer :
    ShapeInvariant noInputLayer ∧
    ([[]] : List (List ℚ)) ≠ [] ∧
    WellShaped ([[]] : List (List ℚ)) noInputLayer.NumInputUnits ∧
    WellShaped ([[1]] : List (List ℚ)) noInputLayer.NumHiddenUnits ∧
    ([[]] : List (List ℚ)).length = ([[1]] : List (List ℚ)).length ∧
    noInputLayer.Turn [[]] [[1]] ⟨1, false, 0⟩ = .error .indexOutOfRange := by
  refine ⟨⟨rfl, ?_, rfl⟩, by simp, ?_, ?_, rfl, rfl⟩
  · intro row hrow
    simp [noInputLayer] at hrow
  · intro v hv
    simp only [List.mem_singleton] at hv
    subst hv
    rfl
  · intro v hv
    simp only [List.mem_singleton] at hv
    subst hv
    rfl

/-- C5 (amended): for every layer satisfying the shape invariant with at least one input
unit and every non-empty well-shaped batch of size `N` with matching deltas,
`Turn(batch, deltas, option)` completes and leaves a layer of the same shape in which
`W'[j][i] = W[j][i] + learningRate * gradW[j][i] / N` when L2 regularization is off,
`W'[j][i] = (W[j][i] + learningRate * gradW[j][i] / N) * (1 - regularizationRate)` when it
is on, and `B'[i] = B[i] + learningRate * gradB[i] / N` in both cases, where
`(gradW, gradB) = Gradient(batch, deltas)` on the layer before the update. -/
theorem HiddenLayer.Turn_spec (h : HiddenLayer α) (batch deltas : List (List α))
    (option : TrainingOption α)
    (hs : ShapeInvariant h) (hpos : 1 ≤ h.NumInputUnits) (hne : batch ≠ [])
    (hN : batch.length = deltas.length)
    (hx : WellShaped batch h.NumInputUnits) (hd : WellShaped deltas h.NumHiddenUnits) :
    ∃ gradW gradB h', h.Gradient batch deltas = .ok (gradW, gradB) ∧
      h.Turn batch deltas option = .ok h' ∧
      ShapeInvariant h' ∧
      h'.NumInputUnits = h.NumInputUnits ∧ h'.NumHiddenUnits = h.NumHiddenUnits ∧
      (∀ j i : Nat, (j : Int) < h.NumInputUnits → (i : Int) < h.NumHiddenUnits →
        entry h'.W j i =
          if option.L2Regularization then
            (entry h.W j i + option.LearningRate * entry gradW j i / (batch.length : α))
              * (1 - option.RegularizationRate)
          else entry h.W j i + option.LearningRate * entry gradW j i / (batch.length : α)) ∧
      (∀ i : Nat, (i : Int) < h.NumHiddenUnits →
        h'.B.getD i 0 = h.B.getD i 0 + option.LearningRate * gradB.getD i 0 / (batch.length : α)) := by
  have hm : 0 < h.W.length := by have := hs.1; omega
  have hlen : batch.length ≠ 0 := fun e => hne (List.length_eq_zero.mp e)
  have hG := Gradient_tab (α := α) h.W.length h.B.length hm (entry h.W)
    (fun i => h.B.getD i 0) h.f h.d batch deltas (le_of_eq hN)
    (fun k hk => le_of_eq (getD_length_of_wellShaped hx hs.1 k hk).symm)
    (fun k hk => le_of_eq (getD_length_of_wellShaped hd hs.2.2 k (hN ▸ hk)).symm)
  have hT := Turn_tab h.W.length h.B.length (entry h.W) (fun i => h.B.getD i 0) h.f h.d
    batch deltas option _ _ hlen hG
  rw [← eq_of_shape h hs] at hG hT
  refine ⟨_, _, _, hG, hT, ⟨?_, ?_, ?_⟩, hs.1, hs.2.2, ?_, ?_⟩
  · exact congrArg Nat.cast (length_of_eq_tab rfl).1
  · intro row hrow
    exact congrArg Nat.cast ((length_of_eq_tab rfl).2 row hrow)
  · exact congrArg Nat.cast (vec_length _ _)
  · intro j i hj hi
    have hj2 : j < h.W.length := by have := hs.1; omega
    have hi2 : i < h.B.length := by have := hs.2.2; omega
    simp only [entry_tab _ hj2 hi2, turnWeight]
  · intro i hi
    have hi2 : i < h.B.length := by have := hs.2.2; omega
    simp only [getD_vec _ _ hi2]

/-- Witness of C5 (amended): the scenario layer, the one-sample batch `[[1, 1]]` with
delta `[[1]]`, learning rate `1` and L2 regularization at rate `1/10`; the weights
become `-9/20` and the bias `-1`. -/
theorem HiddenLayer.Turn_spec_witness :
    (scenarioLayer.Turn [[1, 1]] [[1]] ⟨1, true, 1/10⟩).map (fun h => (h.W, h.B))
      = .ok ([[-9/20], [-9/20]], [-1]) ∧
    ∃ gradW gradB h', scenarioLayer.Gradient [[1, 1]] [[1]] = .ok (gradW, gradB) ∧
      scenarioLayer.Turn [[1, 1]] [[1]] ⟨1, true, 1/10⟩ = .ok h' ∧
      ShapeInvariant h' ∧
      h'.NumInputUnits = scenarioLayer.NumInputUnits ∧
      h'.NumHiddenUnits = scenarioLayer.NumHiddenUnits ∧
      (∀ j i : Nat, (j : Int) < scenarioLayer.NumInputUnits →
        (i : Int) < scenarioLayer.NumHiddenUnits →
        entry h'.W j i =
          if (⟨1, true, 1/10⟩ : TrainingOption ℚ).L2Regularization then
            (entry scenarioLayer.W j i + (⟨1, true, 1/10⟩ : TrainingOption ℚ).LearningRate
                * entry gradW j i / (([[1, 1]] : List (List ℚ)).length : ℚ))
              * (1 - (⟨1, true, 1/10⟩ : TrainingOption ℚ).RegularizationRate)
          else entry scenarioLayer.W j i + (⟨1, true, 1/10⟩ : TrainingOption ℚ).LearningRate
                * entry gradW j i / (([[1, 1]] : List (List ℚ)).length : ℚ)) ∧
      (∀ i : Nat, (i : Int) < scenarioLayer.NumHiddenUnits →
        h'.B.getD i 0 = scenarioLayer.B.getD i 0
          + (⟨1, true, 1/10⟩ : TrainingOption ℚ).LearningRate * gradB.getD i 0
            / (([[1, 1]] : List (List ℚ)).length : ℚ)) :=
  ⟨by norm_num [scenarioLayer, HiddenLayer.Turn, HiddenLayer.Gradient, HiddenLayer.subAt,
      HiddenLayer.setW, HiddenLayer.setB, MakeMatrix, fdiv, loop, index, assign, List.replicate,
      Except.map],
   HiddenLayer.Turn_spec scenarioLayer [[1, 1]] [[1]] ⟨1, true, 1/10⟩
    ⟨rfl, by simp [scenarioLayer], rfl⟩ (by decide) (by simp) rfl
    (by intro v hv; simp only [List.mem_singleton] at hv; subst hv; rfl)
    (by intro v hv; simp only [List.mem_singleton] at hv; subst hv; rfl)⟩

section ShrinkLemmas

theorem map_vec {β γ : Type} (n : Nat) (F : Nat → β) (g : β → γ) :
    (vec n F).map g = vec n (fun i => g (F i)) := by
  unfold vec
  rw [List.map_map]
  rfl

theorem map_tab {β γ : Type} (m n : Nat) (E : Nat → Nat → β) (g : β → γ) :
    (tab m n E).map (fun row => row.map g) = tab m n (fun j i => g (E j i)) := by
  unfold tab
  rw [map_vec]
  exact vec_congr (fun j _ => map_vec n (E j) g)

theorem shrink_tab (m n : Nat) (hm : 0 < m) (E : Nat → Nat → α) (b : Nat → α)
    (f d : Option (α → α)) (batch deltas : List (List α)) (r : α)
    (hne : batch.length ≠ 0) (hN : batch.length ≤ deltas.length)
    (hx : ∀ k, k < batch.length → m ≤ (batch.getD k []).length)
    (hd : ∀ k, k < batch.length → n ≤ (deltas.getD k []).length) :
    HiddenLayer.Turn ⟨tab m n E, vec n b, (m : Int), (n : Int), f, d⟩ batch deltas ⟨0, true, r⟩
      = .ok ⟨(tab m n E).map (fun row => row.map (fun w => w * (1 - r))), vec n b,
             (m : Int), (n : Int), f, d⟩ := by
  rw [Turn_tab m n E b f d batch deltas ⟨0, true, r⟩ _ _ hne
    (Gradient_tab m n hm E b f d batch deltas hN hx hd), map_tab]
  congr 2
  · apply tab_congr
    intro j i _ _
    simp [turnWeight]
  · apply vec_congr
    intro i _
    simp

end ShrinkLemmas

/-- C6 (as stated) fails for batches that are empty or ill-shaped and for layers without
input units.  On the scenario layer with `learningRate = 0`, L2 regularization at rate
`1/10`: the empty batch makes `Turn` divide `0` by the batch size `0` (the weights and the
bias become `NaN`), and the batch `[[1]]`, whose vector is too short, makes it stop with an
index out of range; on `noInputLayer` it stops at `h.W[0]`. -/
theorem HiddenLayer.Turn_shrink_fails :
    scenarioLayer.Turn [] [] ⟨0, true, 1/10⟩ = .error .divByZero ∧
    scenarioLayer.Turn [[1]] [[1]] ⟨0, true, 1/10⟩ = .error .indexOutOfRange ∧
    noInputLayer.Turn [[]] [[1]] ⟨0, true, 1/10⟩ = .error .indexOutOfRange := by
  refine ⟨?_, ?_, rfl⟩
  · norm_num [scenarioLayer, HiddenLayer.Turn, HiddenLayer.Gradient, HiddenLayer.subAt,
      HiddenLayer.setW, HiddenLayer.setB, MakeMatrix, fdiv, loop, index, assign, List.replicate]
  · norm_num [scenarioLayer, HiddenLayer.Turn, HiddenLayer.Gradient, HiddenLayer.subAt,
      HiddenLayer.setW, HiddenLayer.setB, MakeMatrix, fdiv, loop, index, assign, List.replicate]

/-- C6 (amended): for every layer satisfying the shape invariant with at least one input
unit, every non-empty well-shaped batch with matching deltas and every `r`, a single
`Turn` call with `L2Regularization = true`, `RegularizationRate = r` and
`LearningRate = 0` multiplies every weight by exactly `(1 - r)` and leaves every bias
(and every other field) unchanged. -/
theorem HiddenLayer.Turn_shrink (h : HiddenLayer α) (batch deltas : List (List α)) (r : α)
    (hs : ShapeInvariant h) (hpos : 1 ≤ h.NumInputUnits) (hne : batch ≠ [])
    (hN : batch.length = deltas.length)
    (hx : WellShaped batch h.NumInputUnits) (hd : WellShaped deltas h.NumHiddenUnits) :
    h.Turn batch deltas ⟨0, true, r⟩
      = .ok { h with W := h.W.map (fun row => row.map (fun w => w * (1 - r))) } := by
  have hm : 0 < h.W.length := by have := hs.1; omega
  have hlen : batch.length ≠ 0 := fun e => hne (List.length_eq_zero.mp e)
  have key := shrink_tab h.W.length h.B.length hm (entry h.W)
    (fun i => h.B.getD i 0) h.f h.d batch deltas r hlen (le_of_eq hN)
    (fun k hk => le_of_eq (getD_length_of_wellShaped hx hs.1 k hk).symm)
    (fun k hk => le_of_eq (getD_length_of_wellShaped hd hs.2.2 k (hN ▸ hk)).symm)
  have hn : ∀ row ∈ h.W, row.length = h.B.length := fun row hr => by
    have := hs.2.1 row hr
    have := hs.2.2
    omega
  rw [← eq_tab_of_shape rfl hn, ← eq_vec_of_length rfl 0, hs.1, hs.2.2] at key
  exact key

/-- Witness of C6 (amended): the scenario layer, the batch `[[1, 1]]` with delta `[[1]]`
and `r = 1/10`; the weights `1/2` become `9/20`, the bias stays `0`. -/
theorem HiddenLayer.Turn_shrink_witness :
    (scenarioLayer.W.map (fun row => row.map (fun w => w * (1 - (1/10 : ℚ))))
      = [[9/20], [9/20]]) ∧
    scenarioLayer.Turn [[1, 1]] [[1]] ⟨0, true, 1/10⟩
      = .ok { scenarioLayer with
          W := scenarioLayer.W.map (fun row => row.map (fun w => w * (1 - (1/10 : ℚ)))) } :=
  ⟨by norm_num [scenarioLayer],
   HiddenLayer.Turn_shrink scenarioLayer [[1, 1]] [[1]] (1/10)
    ⟨rfl, by simp [scenarioLayer], rfl⟩ (by decide) (by simp) rfl
    (by intro v hv; simp only [List.mem_singleton] at hv; subst hv; rfl)
    (by intro v hv; simp only [List.mem_singleton] at hv; subst hv; rfl)⟩

/-! ## Dense layer: one update step on a single sample -/

section DescentLemmas

theorem sum_vec {δ : Type} [AddCommMonoid δ] (n : Nat) (F : Nat → δ) :
    (vec n F).sum = ∑ i in Finset.range n, F i := by
  induction n with
  | zero => simp [vec]
  | succ k ih =>
    unfold vec at ih ⊢
    rw [List.range_succ, List.map_append, List.sum_append, ih, Finset.sum_range_succ]
    simp

theorem zipWith_vec {β γ δ : Type} (n : Nat) (F : Nat → β) (G : Nat → γ) (g : β → γ → δ) :
    List.zipWith g (vec n F) (vec n G) = vec n (fun i => g (F i) (G i)) := by
  apply List.ext_getElem?
  intro i
  rw [List.getElem?_zipWith, getElem?_vec, getElem?_vec, getElem?_vec]
  by_cases hi : i < n
  · simp [hi]
  · simp [hi]

theorem sqErr_vec (n : Nat) (y t : Nat → α) :
    sqErr (vec n y) (vec n t) = ∑ i in Finset.range n, (y i - t i) ^ 2 := by
  unfold sqErr
  rw [zipWith_vec, sum_vec]

end DescentLemmas

section DescentCore

theorem entry_singleton {β : Type} [Zero β] (v : List β) (i : Nat) :
    entry [v] 0 i = v.getD i 0 := rfl

/-- One update step on a single sample, identity activation, no regularization: the
residual of every output unit is scaled by `1 - lr * (1 + Σ_j x[j]^2)`. -/
theorem descent_tab (m n : Nat) (hm : 0 < m) (E : Nat → Nat → α) (b X T : Nat → α)
    (f d : α → α) (hid : ∀ v, f v = v) (hone : ∀ v, d v = 1) (option : TrainingOption α)
    (hreg : option.L2Regularization = false) :
    ∃ Y Y' : Nat → α, ∃ h' : HiddenLayer α,
      HiddenLayer.Forward ⟨tab m n E, vec n b, (m : Int), (n : Int), some f, some d⟩ (vec m X)
        = .ok (vec n Y) ∧
      HiddenLayer.BackwardWithTarget
        ⟨tab m n E, vec n b, (m : Int), (n : Int), some f, some d⟩ (vec n Y) (vec n T)
        = .ok (vec n (fun i => Y i - T i)) ∧
      HiddenLayer.Turn ⟨tab m n E, vec n b, (m : Int), (n : Int), some f, some d⟩
        [vec m X] [vec n (fun i => Y i - T i)] option = .ok h' ∧
      HiddenLayer.Forward h' (vec m X) = .ok (vec n Y') ∧
      ∀ i, i < n → Y' i - T i
        = (1 - option.LearningRate * (1 + ∑ j in Finset.range m, X j ^ 2)) * (Y i - T i) := by
  let Y : Nat → α := fun i => (∑ j in Finset.range m, E j i * X j) + b i
  have hF : HiddenLayer.Forward ⟨tab m n E, vec n b, (m : Int), (n : Int), some f, some d⟩
      (vec m X) = .ok (vec n Y) := by
    rw [Forward_tab]
    congr 1
    exact vec_congr (fun i _ => hid _)
  have hB : HiddenLayer.BackwardWithTarget
      ⟨tab m n E, vec n b, (m : Int), (n : Int), some f, some d⟩ (vec n Y) (vec n T)
      = .ok (vec n (fun i => Y i - T i)) := by
    have := BackwardWithTarget_vec n Y T 0 0 d (tab m n E) (vec n b) (m : Int) (some f)
    rw [Nat.add_zero] at this
    rw [this]
    congr 1
    exact vec_congr (fun i _ => by rw [hone, mul_one])
  have hG := Gradient_tab m n hm E b (some f) (some d) [vec m X] [vec n (fun i => Y i - T i)]
    (le_refl _)
    (fun k hk => by
      have hk0 : k = 0 := by simpa using hk
      subst hk0
      simp)
    (fun k hk => by
      have hk0 : k = 0 := by simpa using hk
      subst hk0
      simp)
  have hT := Turn_tab m n E b (some f) (some d) [vec m X] [vec n (fun i => Y i - T i)] option
    _ _ (by simp) hG
  refine ⟨Y, _, _, hF, hB, hT, Forward_tab _ _ _ _ _ _ _ _ _, ?_⟩
  intro i hi
  have hsum : ∑ j in Finset.range m,
      turnWeight option [vec m X].length (E j i)
        (-∑ k in Finset.range [vec m X].length,
          entry [vec n (fun i => Y i - T i)] k i * entry [vec m X] k j) * X j
      = (∑ j in Finset.range m, E j i * X j)
        - option.LearningRate * (Y i - T i) * ∑ j in Finset.range m, X j ^ 2 := by
    rw [Finset.mul_sum, ← Finset.sum_sub_distrib]
    apply Finset.sum_congr rfl
    intro j hj
    have hj2 : j < m := Finset.mem_range.mp hj
    simp only [turnWeight, hreg, List.length_singleton, Finset.sum_range_one, entry_singleton,
      getD_vec _ _ hi, getD_vec _ _ hj2, Nat.cast_one, div_one, Bool.false_eq_true, if_false]
    ring
  rw [hid, hsum]
  simp only [List.length_singleton, Finset.sum_range_one, entry_singleton, getD_vec _ _ hi,
    Nat.cast_one, div_one]
  ring

theorem sq_scale_lt {c s : α} (hc1 : -1 < c) (hc2 : c < 1) (hs : 0 < s) : c ^ 2 * s < s := by
  have hc : c ^ 2 < 1 := by nlinarith
  nlinarith

theorem sum_sq_pos_of_ne (n : Nat) (Y T : Nat → α) (hne : vec n Y ≠ vec n T) :
    0 < ∑ i in Finset.range n, (Y i - T i) ^ 2 := by
  by_contra hcon
  apply hne
  apply vec_congr
  intro i hi
  have hle : ∑ i in Finset.range n, (Y i - T i) ^ 2 ≤ 0 := not_lt.mp hcon
  have hnn : ∀ k ∈ Finset.range n, 0 ≤ (Y k - T k) ^ 2 := fun k _ => sq_nonneg _
  have h0 := (Finset.sum_eq_zero_iff_of_nonneg hnn).mp
    (le_antisymm hle (Finset.sum_nonneg hnn)) i (Finset.mem_range.mpr hi)
  have := pow_eq_zero_iff (two_ne_zero) |>.mp h0
  exact sub_eq_zero.mp this

end DescentCore

/-- C7 (as stated) fails for a large learning rate.  On the scenario layer (identity
activation, derivative `1`) with input `[1, 1]`, target `[0]` and learning rate `1`:
`Forward` gives `[1]`, the delta is `[1]`, and after `Turn` on the single-sample batch
`Forward` gives `[-2]`, so the squared error grows from `1` to `4`. -/
theorem HiddenLayer.Turn_descent_fails :
    (0 : ℚ) < (⟨1, false, 0⟩ : TrainingOption ℚ).LearningRate ∧
    scenarioLayer.Forward [1, 1] = .ok [1] ∧
    scenarioLayer.Forward [1, 1] ≠ .ok [0] ∧
    scenarioLayer.BackwardWithTarget [1] [0] = .ok [1] ∧
    (scenarioLayer.Turn [[1, 1]] [[1]] ⟨1, false, 0⟩ >>= fun h' => h'.Forward [1, 1])
      = .ok [-2] ∧
    sqErr ([1] : List ℚ) [0] = 1 ∧ sqErr ([-2] : List ℚ) [0] = 4 ∧
    ¬ (sqErr ([-2] : List ℚ) [0] < sqErr ([1] : List ℚ) [0]) := by
  have h1 : scenarioLayer.Forward [1, 1] = .ok [1] := by
    norm_num [scenarioLayer, HiddenLayer.Forward, loop, index, assign, call]
  refine ⟨by norm_num, h1, ?_, ?_, ?_, ?_, ?_, ?_⟩
  · rw [h1]
    simp
  · norm_num [scenarioLayer, HiddenLayer.BackwardWithTarget, makeSlice, loop, index, assign,
      call, List.replicate]
  · norm_num [scenarioLayer, HiddenLayer.Turn, HiddenLayer.Gradient, HiddenLayer.subAt,
      HiddenLayer.setW, HiddenLayer.setB, MakeMatrix, fdiv, loop, index, assign, List.replicate,
      HiddenLayer.Forward, call]
  · norm_num [sqErr]
  · norm_num [sqErr]
  · norm_num [sqErr]

/-- C7 (amended): for every layer satisfying the shape invariant with at least one input
unit, identity activation `f(x) = x` and derivative `d(y) = 1`, every input `x` of length
`numInputUnits`, every target `t` of length `numHiddenUnits` with `Forward(x) != t`, and
every learning rate `lr > 0` with `lr * (1 + Σ_j x[j]^2) < 2` (no regularization), one
`Turn` call on the single-sample batch `[x]` with deltas
`[BackwardWithTarget(Forward(x), t)]` strictly decreases the squared error of the forward
pass against `t`. -/
theorem HiddenLayer.Turn_descent (h : HiddenLayer α) (f d : α → α) (x t : List α)
    (option : TrainingOption α)
    (hs : ShapeInvariant h) (hpos : 1 ≤ h.NumInputUnits)
    (hf : h.f = some f) (hid : ∀ v, f v = v) (hd : h.d = some d) (hone : ∀ v, d v = 1)
    (hx : (x.length : Int) = h.NumInputUnits) (ht : (t.length : Int) = h.NumHiddenUnits)
    (hyt : h.Forward x ≠ .ok t)
    (hreg : option.L2Regularization = false)
    (hlr : 0 < option.LearningRate)
    (hsmall : option.LearningRate * (1 + (x.map (fun v => v ^ 2)).sum) < 2) :
    ∃ y delta h' y', h.Forward x = .ok y ∧ h.BackwardWithTarget y t = .ok delta ∧
      h.Turn [x] [delta] option = .ok h' ∧ h'.Forward x = .ok y' ∧
      sqErr y' t < sqErr y t := by
  have hm : 0 < h.W.length := by have := hs.1; omega
  have hxl : x.length = h.W.length := by have := hs.1; omega
  have htl : t.length = h.B.length := by have := hs.2.2; omega
  obtain ⟨Y, Y', h', hF, hB, hT, hF', hres⟩ := descent_tab h.W.length h.B.length hm
    (entry h.W) (fun i => h.B.getD i 0) (fun j => x.getD j 0) (fun i => t.getD i 0) f d hid hone
    option hreg
  have hxv : vec h.W.length (fun j => x.getD j 0) = x := (eq_vec_of_length hxl 0).symm
  have htv : vec h.B.length (fun i => t.getD i 0) = t := (eq_vec_of_length htl 0).symm
  have hL : (⟨tab h.W.length h.B.length (entry h.W), vec h.B.length (fun i => h.B.getD i 0),
      (h.W.length : Int), (h.B.length : Int), some f, some d⟩ : HiddenLayer α) = h := by
    rw [← hf, ← hd]
    exact (eq_of_shape h hs).symm
  rw [hL, hxv] at hF hT
  rw [hL, htv] at hB
  rw [hxv] at hF'
  refine ⟨_, _, _, _, hF, hB, hT, hF', ?_⟩
  have hS : (x.map (fun v => v ^ 2)).sum = ∑ j in Finset.range h.W.length, x.getD j 0 ^ 2 := by
    conv_lhs => rw [← hxv]
    rw [map_vec, sum_vec]
  rw [hS] at hsmall
  have hSnn : 0 ≤ ∑ j in Finset.range h.W.length, x.getD j 0 ^ 2 :=
    Finset.sum_nonneg (fun j _ => sq_nonneg _)
  have hne : vec h.B.length Y ≠ vec h.B.length (fun i => t.getD i 0) := by
    intro e
    apply hyt
    rw [hF, e, htv]
  have hpos2 := sum_sq_pos_of_ne _ _ _ hne
  conv_lhs => rw [← htv]
  conv_rhs => rw [← htv]
  rw [sqErr_vec, sqErr_vec]
  have hsc : ∑ i in Finset.range h.B.length, (Y' i - t.getD i 0) ^ 2
      = (1 - option.LearningRate * (1 + ∑ j in Finset.range h.W.length, x.getD j 0 ^ 2)) ^ 2
        * ∑ i in Finset.range h.B.length, (Y i - t.getD i 0) ^ 2 := by
    rw [Finset.mul_sum]
    apply Finset.sum_congr rfl
    intro i hi
    rw [hres i (Finset.mem_range.mp hi), mul_pow]
  rw [hsc]
  apply sq_scale_lt _ _ hpos2
  · linarith
  · have : 0 < option.LearningRate * (1 + ∑ j in Finset.range h.W.length, x.getD j 0 ^ 2) :=
      mul_pos hlr (by linarith)
    linarith

/-- Witness of C7 (amended): the scenario layer, input `[1, 1]`, target `[0]` and learning
rate `1/2`, for which `lr * (1 + 1 + 1) = 3/2 < 2`. -/
theorem HiddenLayer.Turn_descent_witness :
    ∃ y delta h' y', scenarioLayer.Forward [1, 1] = .ok y ∧
      scenarioLayer.BackwardWithTarget y [0] = .ok delta ∧
      scenarioLayer.Turn [[1, 1]] [delta] ⟨1/2, false, 0⟩ = .ok h' ∧
      h'.Forward [1, 1] = .ok y' ∧ sqErr y' [0] < sqErr y [0] :=
  HiddenLayer.Turn_descent scenarioLayer (fun x => x) (fun _ => 1) [1, 1] [0] ⟨1/2, false, 0⟩
    ⟨rfl, by simp [scenarioLayer], rfl⟩ (by decide) rfl (fun _ => rfl) rfl (fun _ => rfl)
    rfl rfl
    (by norm_num [scenarioLayer, HiddenLayer.Forward, loop, index, assign, call])
    rfl (by norm_num) (by norm_num)

/-! ## Softmax layer -/

section SoftmaxLemmas

theorem softmaxForward_vec (exp : α → α) (hexp : ∀ v, 0 < exp v) (n k : Nat) (b X : Nat → α)
    (W : List (List α)) (NI NH : Int) (f d : Option (α → α)) :
    SoftmaxLayer.Forward exp ⟨⟨W, vec n b, NI, NH, f, d⟩⟩ (vec (n + k) X)
      = .ok (vec n (fun i => exp (X i) / ∑ j in Finset.range (n + k), exp (X j))) := by
  unfold SoftmaxLayer.Forward
  simp only [vec_length, replicate_eq_vec]
  apply loop_fill
  intro i G hi
  have hi2 : i < n + k := Nat.lt_add_right k hi
  rw [loop_sum (n + k) (fun j => exp (X j))]
  · have hS : ∑ j in Finset.range (n + k), exp (X j) ≠ 0 :=
      ne_of_gt (Finset.sum_pos (fun j _ => hexp _) ⟨i, Finset.mem_range.mpr hi2⟩)
    simp only [ok_bind, index_vec _ hi2, zero_add, fdiv_ok hS]
  · intro j s hj
    simp only [index_vec _ hj, ok_bind, pure_eq_ok]

theorem softmaxBackwardWithTarget_vec (n kp kt : Nat) (p t : Nat → α)
    (W : List (List α)) (B : List α) (NI : Int) (f d : Option (α → α)) :
    SoftmaxLayer.BackwardWithTarget ⟨⟨W, B, NI, (n : Int), f, d⟩⟩ (vec (n + kp) p)
        (vec (n + kt) t)
      = .ok (vec n (fun i => p i - t i)) := by
  unfold SoftmaxLayer.BackwardWithTarget
  simp only [makeSlice_cast, ok_bind, vec_length]
  apply loop_fill
  intro i G hi
  simp only [index_vec _ (Nat.lt_add_right kp hi), index_vec _ (Nat.lt_add_right kt hi), ok_bind]

theorem mem_vec {β : Type} {n : Nat} {F : Nat → β} {y : β} (h : y ∈ vec n F) :
    ∃ i, i < n ∧ F i = y := by
  unfold vec at h
  rw [List.mem_map] at h
  obtain ⟨i, hi, e⟩ := h
  exact ⟨i, List.mem_range.mp hi, e⟩

end SoftmaxLemmas

/-- C8: on a layer built by `NewSoftmaxLayer` with `numHiddenUnits = 2`, `Forward` on the
input `[0, 0]` of length `2` returns the empty vector, not the softmax `[1/2, 1/2]` of
length `2`: the output is sized by `len(s.B)`, and `NewSoftmaxLayer` leaves `B` `nil`. -/
theorem SoftmaxLayer.Forward_NewSoftmaxLayer_two :
    SoftmaxLayer.Forward Real.exp (NewSoftmaxLayer 2 2 none none) [0, 0] = .ok [] ∧
    SoftmaxLayer.Forward Real.exp (NewSoftmaxLayer 2 2 none none) [0, 0]
      ≠ .ok [Real.exp 0 / (Real.exp 0 + Real.exp 0), Real.exp 0 / (Real.exp 0 + Real.exp 0)] := by
  have h : SoftmaxLayer.Forward Real.exp (NewSoftmaxLayer 2 2 none none) [0, 0] = .ok [] := rfl
  refine ⟨h, ?_⟩
  rw [h]
  simp

/-- C9 (as stated) fails for a layer of size one: on the softmax layer with
`numHiddenUnits = 1` and a bias buffer of length `1`, the non-empty input `[0]` of length
`1` gives `[1]`, whose only component is not strictly below `1`. -/
theorem SoftmaxLayer.Forward_size_one :
    ([0] : List ℝ) ≠ [] ∧
    (([0] : List ℝ).length : Int) = (softmaxWithBias 1 : SoftmaxLayer ℝ).NumHiddenUnits ∧
    SoftmaxLayer.Forward Real.exp (softmaxWithBias 1) [0] = .ok [1] ∧
    ¬ (∀ y ∈ ([1] : List ℝ), 0 < y ∧ y < 1) := by
  refine ⟨by simp, rfl, ?_, ?_⟩
  · simp [SoftmaxLayer.Forward, softmaxWithBias, loop, index, assign, fdiv]
  · simp

/-- C9 (amended): for every softmax layer whose bias buffer has length `numHiddenUnits`
and every non-empty input `x` of length `numHiddenUnits`, `Forward(x)` returns a vector of
that length whose components sum to `1` (in exact arithmetic) and lie in `(0, 1]`,
strictly below `1` when there are at least two of them.  (`exp` is any positive function,
as `math.Exp` is on the reals.) -/
theorem SoftmaxLayer.Forward_normalized (exp : α → α) (hexp : ∀ v, 0 < exp v)
    (s : SoftmaxLayer α) (x : List α)
    (hB : (s.B.length : Int) = s.NumHiddenUnits)
    (hx : (x.length : Int) = s.NumHiddenUnits) (hne : x ≠ []) :
    ∃ out, s.Forward exp x = .ok out ∧ out.length = x.length ∧ out.sum = 1 ∧
      (∀ y ∈ out, 0 < y ∧ y ≤ 1) ∧ (2 ≤ x.length → ∀ y ∈ out, y < 1) := by
  obtain ⟨⟨W, B, NI, NH, f, d⟩⟩ := s
  simp only at hB hx
  have hlen : B.length = x.length := by omega
  have hn : 0 < x.length := List.length_pos.mpr hne
  have key := softmaxForward_vec exp hexp x.length 0 (fun i => B.getD i 0)
    (fun j => x.getD j 0) W NI NH f d
  rw [Nat.add_zero, ← eq_vec_of_length hlen 0, ← eq_vec_of_length rfl 0] at key
  have hSpos : 0 < ∑ j in Finset.range x.length, exp (x.getD j 0) :=
    Finset.sum_pos (fun j _ => hexp _) ⟨0, Finset.mem_range.mpr hn⟩
  refine ⟨_, key, vec_length _ _, ?_, ?_, ?_⟩
  · rw [sum_vec, ← Finset.sum_div, div_self (ne_of_gt hSpos)]
  · intro y hy
    obtain ⟨i, hi, rfl⟩ := mem_vec hy
    refine ⟨div_pos (hexp _) hSpos, (div_le_one hSpos).mpr ?_⟩
    exact Finset.single_le_sum (f := fun j => exp (x.getD j 0)) (fun j _ => le_of_lt (hexp _))
      (Finset.mem_range.mpr hi)
  · intro h2 y hy
    obtain ⟨i, hi, rfl⟩ := mem_vec hy
    rw [div_lt_one hSpos]
    by_cases h0 : i = 0
    · subst h0
      exact Finset.single_lt_sum (f := fun j => exp (x.getD j 0)) (j := 1) (by decide)
        (Finset.mem_range.mpr hi) (Finset.mem_range.mpr (by omega)) (hexp _)
        (fun k _ _ => le_of_lt (hexp _))
    · exact Finset.single_lt_sum (f := fun j => exp (x.getD j 0)) (j := 0) (Ne.symm h0)
        (Finset.mem_range.mpr hi) (Finset.mem_range.mpr hn) (hexp _)
        (fun k _ _ => le_of_lt (hexp _))

/-- Witness of C9 (amended): the softmax layer of size `2` with an allocated bias buffer,
on the input `[0, 0]`, with the real exponential. -/
theorem SoftmaxLayer.Forward_normalized_witness :
    ∃ out, SoftmaxLayer.Forward Real.exp (softmaxWithBias 2) ([0, 0] : List ℝ) = .ok out ∧
      out.length = ([0, 0] : List ℝ).length ∧ out.sum = 1 ∧
      (∀ y ∈ out, 0 < y ∧ y ≤ 1) ∧ (2 ≤ ([0, 0] : List ℝ).length → ∀ y ∈ out, y < 1) :=
  SoftmaxLayer.Forward_normalized Real.exp Real.exp_pos (softmaxWithBias 2) [0, 0] rfl rfl
    (by simp)

/-- C10 (as stated) fails when the common length of `predicted` and `target` is not
`numHiddenUnits`: on a layer with `numHiddenUnits = 1`, `BackwardWithTarget([1, 2], [0, 0])`
returns `[1]`, of length `1` and not `2`; on a layer with `numHiddenUnits = 3` it stops
with an index out of range. -/
theorem SoftmaxLayer.BackwardWithTarget_length_mismatch :
    ([1, 2] : List ℚ).length = ([0, 0] : List ℚ).length ∧
    SoftmaxLayer.BackwardWithTarget (NewSoftmaxLayer 1 1 none none) ([1, 2] : List ℚ) [0, 0]
      = .ok [1] ∧
    ([1] : List ℚ).length ≠ ([1, 2] : List ℚ).length ∧
    SoftmaxLayer.BackwardWithTarget (NewSoftmaxLayer 3 3 none none) ([1, 2] : List ℚ) [0, 0]
      = .error .indexOutOfRange := by
  refine ⟨rfl, ?_, by decide, ?_⟩
  · norm_num [SoftmaxLayer.BackwardWithTarget, NewSoftmaxLayer, makeSlice, loop, index, assign,
      List.replicate]
  · norm_num [SoftmaxLayer.BackwardWithTarget, NewSoftmaxLayer, makeSlice, loop, index, assign,
      List.replicate]

/-- C10 (amended): for every softmax layer and every `predicted` and `target` of length
`numHiddenUnits`, `BackwardWithTarget(predicted, target)` returns a vector of that length
whose `i`-th component is exactly `predicted[i] - target[i]`; no activation derivative is
called: the run is the same whatever the layer's derivative field holds, `nil` included. -/
theorem SoftmaxLayer.BackwardWithTarget_closed_form (s : SoftmaxLayer α) (predicted target : List α)
    (hp : (predicted.length : Int) = s.NumHiddenUnits)
    (ht : (target.length : Int) = s.NumHiddenUnits) :
    (∃ delta, s.BackwardWithTarget predicted target = .ok delta ∧
      delta.length = predicted.length ∧
      ∀ i : Nat, i < predicted.length →
        delta[i]? = some (predicted.getD i 0 - target.getD i 0)) ∧
    ∀ d' : Option (α → α),
      SoftmaxLayer.BackwardWithTarget { s with d := d' } predicted target
        = s.BackwardWithTarget predicted target := by
  refine ⟨?_, fun _ => rfl⟩
  obtain ⟨⟨W, B, NI, NH, f, d⟩⟩ := s
  simp only at hp ht
  subst hp
  have hlen : target.length = predicted.length := by omega
  have key := softmaxBackwardWithTarget_vec predicted.length 0 0
    (fun i => predicted.getD i 0) (fun i => target.getD i 0) W B NI f d
  rw [Nat.add_zero, ← eq_vec_of_length rfl 0, ← eq_vec_of_length hlen 0] at key
  refine ⟨_, key, vec_length _ _, ?_⟩
  intro i hi
  rw [getElem?_vec, if_pos hi]

/-- Witness of C10 (amended): a layer built by `NewSoftmaxLayer` with `numHiddenUnits = 2`
(its derivative field is `nil`), `predicted = [1/4, 3/4]`, `target = [0, 1]`. -/
theorem SoftmaxLayer.BackwardWithTarget_closed_form_witness :
    SoftmaxLayer.BackwardWithTarget (NewSoftmaxLayer 2 2 none none) ([1/4, 3/4] : List ℚ) [0, 1]
      = .ok [1/4, -1/4] ∧
    (∃ delta, SoftmaxLayer.BackwardWithTarget (NewSoftmaxLayer 2 2 none none)
        ([1/4, 3/4] : List ℚ) [0, 1] = .ok delta ∧
      delta.length = ([1/4, 3/4] : List ℚ).length ∧
      ∀ i : Nat, i < ([1/4, 3/4] : List ℚ).length →
        delta[i]? = some (([1/4, 3/4] : List ℚ).getD i 0 - ([0, 1] : List ℚ).getD i 0)) ∧
    ∀ d' : Option (ℚ → ℚ),
      SoftmaxLayer.BackwardWithTarget
          { (NewSoftmaxLayer 2 2 none none : SoftmaxLayer ℚ) with d := d' } [1/4, 3/4] [0, 1]
        = SoftmaxLayer.BackwardWithTarget (NewSoftmaxLayer 2 2 none none) [1/4, 3/4] [0, 1] :=
  ⟨by norm_num [SoftmaxLayer.BackwardWithTarget, NewSoftmaxLayer, makeSlice, loop, index,
      assign, List.replicate],
   SoftmaxLayer.BackwardWithTarget_closed_form (NewSoftmaxLayer 2 2 none none) [1/4, 3/4] [0, 1]
    rfl rfl⟩

/-! ## Softmax layer: pass-through delta, update step, batch variants, output length -/

section SoftmaxBackLemmas

theorem bind_eq_ok {β γ : Type} {x : Run β} {k : β → Run γ} {c : γ}
    (h : (x >>= k) = .ok c) : ∃ a, x = .ok a ∧ k a = .ok c := by
  cases x with
  | error e => simp at h
  | ok a => exact ⟨a, rfl, h⟩

/-- Partial correctness of a loop: a property that every completed step conveys holds
of the final state of every completed loop. -/
theorem loop_preserves {σ : Type} (P : σ → Prop) (body : Nat → σ → Run σ)
    (hbody : ∀ k s s', P s → body k s = .ok s' → P s') (n : Nat) (s0 s : σ) (h0 : P s0)
    (hrun : loop body n s0 = .ok s) : P s := by
  induction n generalizing s with
  | zero =>
    have : s0 = s := by simpa [loop] using hrun
    exact this ▸ h0
  | succ m ih =>
    rw [loop_succ] at hrun
    obtain ⟨a, ha, hk⟩ := bind_eq_ok hrun
    exact hbody m a s (ih a ha) hk

theorem assign_length {β : Type} {xs ys : List β} {i : Nat} {v : β}
    (h : assign xs i v = .ok ys) : ys.length = xs.length := by
  unfold assign at h
  by_cases hi : i < xs.length
  · rw [if_pos hi] at h
    have : xs.set i v = ys := by simpa using h
    rw [← this, List.length_set]
  · rw [if_neg hi] at h
    simp at h

theorem softmaxBackward_vec (n k : Nat) (a : Nat → α) (predicted : List α)
    (W : List (List α)) (B : List α) (NI : Int) (f d : Option (α → α)) :
    SoftmaxLayer.Backward ⟨⟨W, B, NI, (n : Int), f, d⟩⟩ predicted (vec (n + k) a)
      = .ok (vec n a) := by
  unfold SoftmaxLayer.Backward
  simp only [makeSlice_cast, ok_bind, vec_length]
  apply loop_fill
  intro i G hi
  simp only [index_vec _ (Nat.lt_add_right k hi), ok_bind]

theorem softmaxForward_length (exp : α → α) (s : SoftmaxLayer α) (input out : List α)
    (h : s.Forward exp input = .ok out) : out.length = s.B.length := by
  unfold SoftmaxLayer.Forward at h
  have := loop_preserves (fun p : List α => p.length = s.B.length) _ (by
    intro k p p' hp hstep
    obtain ⟨_, _, h1⟩ := bind_eq_ok hstep
    obtain ⟨_, _, h2⟩ := bind_eq_ok h1
    obtain ⟨_, _, h3⟩ := bind_eq_ok h2
    rw [assign_length h3]
    exact hp) _ _ _ (by simp) h
  exact this

end SoftmaxBackLemmas

/-- C11: for every softmax layer, every `predicted` and every upstream accumulated delta
of length `numHiddenUnits`, `Backward(predicted, upstream)` returns a vector equal to
`upstream`, whatever `predicted` is. -/
theorem SoftmaxLayer.Backward_passthrough (s : SoftmaxLayer α) (predicted upstream : List α)
    (hu : (upstream.length : Int) = s.NumHiddenUnits) :
    s.Backward predicted upstream = .ok upstream := by
  obtain ⟨⟨W, B, NI, NH, f, d⟩⟩ := s
  simp only at hu
  subst hu
  have key := softmaxBackward_vec upstream.length 0 (fun i => upstream.getD i 0) predicted
    W B NI f d
  rw [Nat.add_zero, ← eq_vec_of_length rfl 0] at key
  exact key

/-- Witness of C11: a layer built by `NewSoftmaxLayer` with `numHiddenUnits = 2`, the
upstream delta `[1/4, -1/4]` and a `predicted` of another length. -/
theorem SoftmaxLayer.Backward_passthrough_witness :
    SoftmaxLayer.Backward (NewSoftmaxLayer 2 2 none none) ([7] : List ℚ) [1/4, -1/4]
      = .ok [1/4, -1/4] :=
  SoftmaxLayer.Backward_passthrough (NewSoftmaxLayer 2 2 none none) [7] [1/4, -1/4] rfl

/-- C12: `SoftmaxLayer.Turn` is a no-op: for every softmax layer and every batch, deltas
and option (empty, ragged or mismatched ones included) the call completes and leaves the
layer, hence each of `W`, `B`, `NumInputUnits` and `NumHiddenUnits`, unchanged. -/
theorem SoftmaxLayer.Turn_noop {β : Type} (s : SoftmaxLayer β) (batch deltas : List (List β))
    (option : TrainingOption β) :
    ∃ s', s.Turn batch deltas option = .ok s' ∧ s' = s ∧ s'.W = s.W ∧ s'.B = s.B ∧
      s'.NumInputUnits = s.NumInputUnits ∧ s'.NumHiddenUnits = s.NumHiddenUnits := by
  refine ⟨s, ?_, rfl, rfl, rfl, rfl, rfl⟩
  unfold SoftmaxLayer.Turn
  exact pure_eq_ok s

/-- C17: on a layer built by `NewSoftmaxLayer` with `numHiddenUnits = 2` (also when a
derivative is passed to the constructor, which drops it), the batch variants called on
the one-sample batch `[[1/4, 3/4]]` stop with a call through the `nil` derivative: they
run the methods of the embedded `HiddenLayer`, not the overrides, which on the same
sample return `[1/4, -1/4]` and the upstream delta. -/
theorem SoftmaxLayer.BackwardBatch_nil_derivative :
    SoftmaxLayer.BackwardWithTargetBatch (NewSoftmaxLayer 2 2 none none)
        ([[1/4, 3/4]] : List (List ℚ)) [[0, 1]] = .error .nilFunc ∧
    SoftmaxLayer.BackwardBatch (NewSoftmaxLayer 2 2 none none)
        ([[1/4, 3/4]] : List (List ℚ)) [[1, 2]] = .error .nilFunc ∧
    SoftmaxLayer.BackwardWithTargetBatch
        (NewSoftmaxLayer 2 2 (some (fun x => x)) (some (fun _ => 1)))
        ([[1/4, 3/4]] : List (List ℚ)) [[0, 1]] = .error .nilFunc ∧
    SoftmaxLayer.BackwardWithTarget (NewSoftmaxLayer 2 2 none none)
        ([1/4, 3/4] : List ℚ) [0, 1] = .ok [1/4, -1/4] ∧
    SoftmaxLayer.Backward (NewSoftmaxLayer 2 2 none none)
        ([1/4, 3/4] : List ℚ) [1, 2] = .ok [1, 2] := by
  refine ⟨?_, ?_, ?_, ?_, ?_⟩
  · norm_num [SoftmaxLayer.BackwardWithTargetBatch, HiddenLayer.BackwardWithTargetBatch,
      HiddenLayer.BackwardWithTarget, NewSoftmaxLayer, makeSlice, loop, index, assign, call,
      List.replicate]
  · norm_num [SoftmaxLayer.BackwardBatch, HiddenLayer.BackwardBatch,
      HiddenLayer.Backward, NewSoftmaxLayer, makeSlice, loop, index, assign, call,
      List.replicate]
  · norm_num [SoftmaxLayer.BackwardWithTargetBatch, HiddenLayer.BackwardWithTargetBatch,
      HiddenLayer.BackwardWithTarget, NewSoftmaxLayer, makeSlice, loop, index, assign, call,
      List.replicate]
  · norm_num [SoftmaxLayer.BackwardWithTarget, NewSoftmaxLayer, makeSlice, loop, index,
      assign, List.replicate]
  · norm_num [SoftmaxLayer.Backward, NewSoftmaxLayer, makeSlice, loop, index,
      assign, List.replicate]

/-- C20 (as stated) fails for an input shorter than `B`: on the softmax layer whose bias
buffer has length `2`, `Forward([0])` stops with an index out of range at `input[1]`, so
there is no result of length `len(B)`. -/
theorem SoftmaxLayer.Forward_short_input :
    (softmaxWithBias 2 : SoftmaxLayer ℝ).B.length = 2 ∧
    SoftmaxLayer.Forward Real.exp (softmaxWithBias 2) ([0] : List ℝ)
      = .error .indexOutOfRange := by
  refine ⟨rfl, ?_⟩
  simp [SoftmaxLayer.Forward, softmaxWithBias, loop, index, assign, fdiv]

/-- C20 (amended): whenever `SoftmaxLayer.Forward` returns, the length of its result is
`len(B)` of the embedded `HiddenLayer`, whatever `NumHiddenUnits` is; it returns for every
input of length at least `len(B)`; and on every layer built by `NewSoftmaxLayer`, which
never allocates `B`, it returns the empty vector for every input.  (`exp` is any positive
function, as `math.Exp` is on the reals.) -/
theorem SoftmaxLayer.Forward_length (exp : α → α) (hexp : ∀ v, 0 < exp v)
    (s : SoftmaxLayer α) (input : List α) :
    (∀ out, s.Forward exp input = .ok out → out.length = s.B.length) ∧
    (s.B.length ≤ input.length →
      ∃ out, s.Forward exp input = .ok out ∧ out.length = s.B.length) ∧
    (∀ (numInputUnits numHiddenUnits : Int) (f d : Option (α → α)),
      SoftmaxLayer.Forward exp (NewSoftmaxLayer numInputUnits numHiddenUnits f d) input
        = .ok []) := by
  refine ⟨fun out h => softmaxForward_length exp s input out h, ?_, fun _ _ _ _ => rfl⟩
  intro hlen
  obtain ⟨⟨W, B, NI, NH, f, d⟩⟩ := s
  simp only at hlen
  obtain ⟨k, hk⟩ := Nat.exists_eq_add_of_le hlen
  have key := softmaxForward_vec exp hexp B.length k (fun i => B.getD i 0)
    (fun j => input.getD j 0) W NI NH f d
  rw [← hk, ← eq_vec_of_length rfl 0, ← eq_vec_of_length rfl 0] at key
  exact ⟨_, key, vec_length _ _⟩

/-- Witness of C20 (amended): the softmax layer with a bias buffer of length `2` on an
input of length `3`, with the real exponential. -/
theorem SoftmaxLayer.Forward_length_witness :
    (∃ out, SoftmaxLayer.Forward Real.exp (softmaxWithBias 2) ([0, 0, 0] : List ℝ) = .ok out ∧
      out.length = 2) ∧
    (∀ out, SoftmaxLayer.Forward Real.exp (softmaxWithBias 2) ([0, 0, 0] : List ℝ) = .ok out →
      out.length = (softmaxWithBias 2 : SoftmaxLayer ℝ).B.length) ∧
    ((softmaxWithBias 2 : SoftmaxLayer ℝ).B.length ≤ ([0, 0, 0] : List ℝ).length →
      ∃ out, SoftmaxLayer.Forward Real.exp (softmaxWithBias 2) ([0, 0, 0] : List ℝ) = .ok out ∧
        out.length = (softmaxWithBias 2 : SoftmaxLayer ℝ).B.length) ∧
    (∀ (numInputUnits numHiddenUnits : Int) (f d : Option (ℝ → ℝ)),
      SoftmaxLayer.Forward Real.exp (NewSoftmaxLayer numInputUnits numHiddenUnits f d)
        ([0, 0, 0] : List ℝ) = .ok []) :=
  ⟨(SoftmaxLayer.Forward_length Real.exp Real.exp_pos (softmaxWithBias 2) [0, 0, 0]).2.1
      (by simp [softmaxWithBias]),
   SoftmaxLayer.Forward_length Real.exp Real.exp_pos (softmaxWithBias 2) [0, 0, 0]⟩

/-! ## Dense layer: construction and initialization -/

section InitLemmas

theorem loop_trace_eq {σ : Type} (body : Nat → σ → Run σ) (n : Nat) (S : Nat → σ) (s0 sn : σ)
    (h0 : s0 = S 0) (hn : S n = sn)
    (hstep : ∀ k, k < n → body k (S k) = .ok (S (k + 1))) :
    loop body n s0 = .ok sn := by
  rw [h0, ← hn]
  exact loop_trace body n S hstep

theorem layer_congr_W {β : Type} {W W' : List (List β)} (h : W = W') (B : List β) (NI NH : Int)
    (f d : Option (β → β)) :
    (⟨W, B, NI, NH, f, d⟩ : HiddenLayer β) = ⟨W', B, NI, NH, f, d⟩ := by
  rw [h]

theorem layer_congr_B {β : Type} {B B' : List β} (h : B = B') (W : List (List β)) (NI NH : Int)
    (f d : Option (β → β)) :
    (⟨W, B, NI, NH, f, d⟩ : HiddenLayer β) = ⟨W, B', NI, NH, f, d⟩ := by
  rw [h]

theorem Init_tab (rand : Nat → α) (m n : Nat) (E : Nat → Nat → α) (b : Nat → α)
    (NI NH : Int) (f d : Option (α → α)) (k : Nat) :
    HiddenLayer.Init rand ⟨tab m n E, vec n b, NI, NH, f, d⟩ k
      = .ok (⟨tab m n (fun i j => rand (k + i * n + j) - 1 / 2), vec n (fun _ => 1),
              NI, NH, f, d⟩, k + m * n) := by
  have first : loop (fun i (st : HiddenLayer α × Nat) => do
        let wi ← index st.1.W i
        loop (fun j (st : HiddenLayer α × Nat) => do
            let h' ← st.1.setW i j (rand st.2 - 1 / 2)
            pure (h', st.2 + 1))
          wi.length st)
      m ((⟨tab m n E, vec n b, NI, NH, f, d⟩ : HiddenLayer α), k)
      = .ok ((⟨tab m n (fun i j => rand (k + i * n + j) - 1 / 2), vec n b, NI, NH, f, d⟩
              : HiddenLayer α), k + m * n) := by
    apply loop_trace_eq _ m (fun i =>
      ((⟨tab m n (fun i' j' => if i' < i then rand (k + i' * n + j') - 1 / 2 else E i' j'),
          vec n b, NI, NH, f, d⟩ : HiddenLayer α), k + i * n))
    · exact Prod.ext (layer_congr_W (tab_congr (by intro i j _ _; simp)) _ _ _ _ _)
        (by simp)
    · exact Prod.ext (layer_congr_W (tab_congr (by intro i j hi _; rw [if_pos hi])) _ _ _ _ _)
        rfl
    · intro i hi
      dsimp only
      rw [index_tab _ hi, ok_bind, vec_length]
      apply loop_trace_eq _ n (fun j =>
        ((⟨tab m n (fun i' j' => if i' < i ∨ (i' = i ∧ j' < j)
              then rand (k + i' * n + j') - 1 / 2 else E i' j'),
            vec n b, NI, NH, f, d⟩ : HiddenLayer α), k + i * n + j))
      · exact Prod.ext (layer_congr_W (tab_congr (by intro i' j' _ _; simp)) _ _ _ _ _) rfl
      · refine Prod.ext (layer_congr_W (tab_congr ?_) _ _ _ _ _) (by dsimp only; ring)
        intro i' j' _ hj'
        by_cases e1 : i' < i
        · simp [e1, Nat.lt_succ_of_lt e1]
        · by_cases e2 : i' = i
          · subst e2; simp [hj']
          · have e3 : ¬ i' < i + 1 := by omega
            simp [e1, e2, e3]
      · intro j hj
        dsimp only
        rw [setW_tab _ _ _ _ _ _ _ hi hj, ok_bind, pure_eq_ok]
        refine congrArg Except.ok (Prod.ext (layer_congr_W (tab_congr ?_) _ _ _ _ _) rfl)
        intro i' j' _ _
        by_cases e1 : i' = i
        · by_cases e2 : j' = j
          · subst e1 e2; simp
          · by_cases e3 : j' < j
            · simp [e1, e2, e3, Nat.lt_succ_of_lt e3]
            · have e4 : ¬ j' < j + 1 := by omega
              simp [e1, e2, e3, e4]
        · simp [e1]
  have second : loop (fun j (h : HiddenLayer α) => h.setB j 1) n
      (⟨tab m n (fun i j => rand (k + i * n + j) - 1 / 2), vec n b, NI, NH, f, d⟩
        : HiddenLayer α)
      = .ok ⟨tab m n (fun i j => rand (k + i * n + j) - 1 / 2), vec n (fun _ => 1),
              NI, NH, f, d⟩ := by
    apply loop_trace_eq _ n (fun j =>
      (⟨tab m n (fun i j => rand (k + i * n + j) - 1 / 2),
        vec n (fun i => if i < j then 1 else b i), NI, NH, f, d⟩ : HiddenLayer α))
    · exact layer_congr_B (vec_congr (by intro i _; simp)) _ _ _ _ _
    · exact layer_congr_B (vec_congr (by intro i hi; rw [if_pos hi])) _ _ _ _ _
    · intro j hj
      dsimp only
      rw [setB_vec _ _ _ _ _ _ _ hj]
      refine congrArg Except.ok (layer_congr_B (vec_congr ?_) _ _ _ _ _)
      intro i _
      by_cases e1 : i = j
      · subst e1; simp
      · by_cases e2 : i < j
        · simp [e1, e2, Nat.lt_succ_of_lt e2]
        · have e3 : ¬ i < j + 1 := by omega
          simp [e1, e2, e3]
  unfold HiddenLayer.Init
  have hl : (tab m n E).length = m := vec_length _ _
  dsimp only
  rw [hl, first, ok_bind]
  dsimp only
  rw [vec_length, second]
  rfl

theorem NewHiddenLayer_cast (rand : Nat → α) (k m n : Nat) (f d : Option (α → α)) :
    NewHiddenLayer rand k (m : Int) (n : Int) f d
      = .ok (⟨tab m n (fun i j => rand (k + i * n + j) - 1 / 2), vec n (fun _ => 1),
              (m : Int), (n : Int), f, d⟩, k + m * n) := by
  unfold NewHiddenLayer makeMatrixInt
  rw [if_pos ⟨Int.natCast_nonneg m, Int.natCast_nonneg n⟩, makeSlice_cast]
  simp only [ok_bind, Int.toNat_natCast, MakeMatrix_eq_tab, Init_tab, pure_eq_ok]

theorem NewHiddenLayer_negative_error (rand : Nat → α) (k : Nat) (ni nh : Int)
    (f d : Option (α → α)) (hneg : ni < 0 ∨ nh < 0) :
    NewHiddenLayer rand k ni nh f d = .error .negativeLen := by
  unfold NewHiddenLayer makeMatrixInt
  rw [if_neg (by omega)]
  rfl

end InitLemmas

/-- C13 (as stated) fails for a negative unit count: `NewHiddenLayer(1, -1, f, d)` and
`NewHiddenLayer(-1, 1, f, d)` return no layer, the allocation of a buffer of negative
length stops them. -/
theorem NewHiddenLayer_negative :
    (∀ k, 0 ≤ cycleSource k ∧ cycleSource k < 1) ∧
    NewHiddenLayer cycleSource 0 1 (-1) none none = .error .negativeLen ∧
    NewHiddenLayer cycleSource 0 (-1) 1 none none = .error .negativeLen := by
  refine ⟨?_, rfl, rfl⟩
  intro k
  unfold cycleSource
  have h1 : ((k % 10 : Nat) : ℚ) < 10 := by exact_mod_cast Nat.mod_lt k (by decide)
  have h2 : (0 : ℚ) ≤ ((k % 10 : Nat) : ℚ) := Nat.cast_nonneg _
  constructor
  · positivity
  · rw [div_lt_one (by norm_num)]
    exact h1

/-- C13 (amended): for every `numInputUnits >= 0`, `numHiddenUnits >= 0` and every random
source returning values in `[0, 1)`, `NewHiddenLayer(numInputUnits, numHiddenUnits, f, d)`
returns a layer whose `W` has `numInputUnits` rows of length `numHiddenUnits` with every
weight in `[-0.5, 0.5)`, whose `B` has length `numHiddenUnits` with every bias equal to
`1.0`, and whose `NumInputUnits`/`NumHiddenUnits` fields equal the arguments (and whose
functions are `f` and `d`). -/
theorem NewHiddenLayer_spec (rand : Nat → α) (k : Nat) (numInputUnits numHiddenUnits : Int)
    (f d : Option (α → α))
    (hr : ∀ c, 0 ≤ rand c ∧ rand c < 1)
    (hni : 0 ≤ numInputUnits) (hnh : 0 ≤ numHiddenUnits) :
    ∃ h k', NewHiddenLayer rand k numInputUnits numHiddenUnits f d = .ok (h, k') ∧
      (h.W.length : Int) = numInputUnits ∧
      (∀ row ∈ h.W, (row.length : Int) = numHiddenUnits ∧
        ∀ w ∈ row, -(1 / 2) ≤ w ∧ w < 1 / 2) ∧
      (h.B.length : Int) = numHiddenUnits ∧ (∀ b ∈ h.B, b = 1) ∧
      h.NumInputUnits = numInputUnits ∧ h.NumHiddenUnits = numHiddenUnits ∧
      h.f = f ∧ h.d = d := by
  obtain ⟨m, rfl⟩ := Int.eq_ofNat_of_zero_le hni
  obtain ⟨n, rfl⟩ := Int.eq_ofNat_of_zero_le hnh
  refine ⟨_, _, NewHiddenLayer_cast rand k m n f d, ?_, ?_, ?_, ?_, rfl, rfl, rfl, rfl⟩
  · exact congrArg Nat.cast (length_of_eq_tab rfl).1
  · intro row hrow
    refine ⟨congrArg Nat.cast ((length_of_eq_tab rfl).2 row hrow), ?_⟩
    obtain ⟨i, _, rfl⟩ := mem_vec hrow
    intro w hw
    obtain ⟨j, _, rfl⟩ := mem_vec hw
    have := hr (k + i * n + j)
    constructor
    · linarith [this.1]
    · linarith [this.2]
  · exact congrArg Nat.cast (vec_length _ _)
  · intro b hb
    obtain ⟨i, _, rfl⟩ := mem_vec hb
    rfl

/-- Witness of C13 (amended): two input units, three hidden units and the source that
returns `0, 1/10, 2/10, ...`; six values are drawn, in row order. -/
theorem NewHiddenLayer_spec_witness :
    (NewHiddenLayer cycleSource 0 2 3 none none).map (fun p => (p.1.W, p.1.B, p.2))
      = .ok ([[-1/2, -2/5, -3/10], [-1/5, -1/10, 0]], [1, 1, 1], 6) ∧
    ∃ h k', NewHiddenLayer cycleSource 0 2 3 none none = .ok (h, k') ∧
      (h.W.length : Int) = 2 ∧
      (∀ row ∈ h.W, (row.length : Int) = 3 ∧ ∀ w ∈ row, -(1 / 2) ≤ w ∧ w < 1 / 2) ∧
      (h.B.length : Int) = 3 ∧ (∀ b ∈ h.B, b = 1) ∧
      h.NumInputUnits = 2 ∧ h.NumHiddenUnits = 3 ∧ h.f = none ∧ h.d = none :=
  ⟨by norm_num [NewHiddenLayer, makeMatrixInt, MakeMatrix, makeSlice, HiddenLayer.Init,
      HiddenLayer.setW, HiddenLayer.setB, cycleSource, loop, index, assign, List.replicate,
      Except.map],
   NewHiddenLayer_spec cycleSource 0 2 3 none none
    (fun c => by
      unfold cycleSource
      have h1 : ((c % 10 : Nat) : ℚ) < 10 := by exact_mod_cast Nat.mod_lt c (by decide)
      have h2 : (0 : ℚ) ≤ ((c % 10 : Nat) : ℚ) := Nat.cast_nonneg _
      exact ⟨by positivity, by rw [div_lt_one (by norm_num)]; exact h1⟩)
    (by decide) (by decide)⟩

/-! ## Dense layer: the shape invariant is kept -/

section ShapeKept

/-- The shape invariant together with the values of the two size fields. -/
theorem shape_of_tab {β : Type} (m n : Nat) (E : Nat → Nat → β)
    (b : Nat → β) (f d : Option (β → β)) :
    ShapeInvariant (⟨tab m n E, vec n b, (m : Int), (n : Int), f, d⟩ : HiddenLayer β) :=
  ⟨congrArg Nat.cast (length_of_eq_tab rfl).1,
   fun row hrow => congrArg Nat.cast ((length_of_eq_tab rfl).2 row hrow),
   congrArg Nat.cast (vec_length _ _)⟩

theorem index_ok_mem {β : Type} {xs : List β} {i : Nat} {x : β} (h : index xs i = .ok x) :
    x ∈ xs := by
  unfold index at h
  cases hx : xs[i]? with
  | none => rw [hx] at h; simp at h
  | some y =>
    rw [hx] at h
    have e : y = x := by simpa using h
    exact e ▸ List.getElem?_mem hx

theorem assign_eq_set {β : Type} {xs ys : List β} {i : Nat} {v : β}
    (h : assign xs i v = .ok ys) : ys = xs.set i v := by
  unfold assign at h
  by_cases hi : i < xs.length
  · rw [if_pos hi] at h
    exact (by simpa using h : xs.set i v = ys).symm
  · rw [if_neg hi] at h
    simp at h

theorem setW_keeps {β : Type} (h h' : HiddenLayer β) (j i : Nat) (v : β) (NI NH : Int)
    (hP : ShapeInvariant h ∧ h.NumInputUnits = NI ∧ h.NumHiddenUnits = NH)
    (hrun : h.setW j i v = .ok h') :
    ShapeInvariant h' ∧ h'.NumInputUnits = NI ∧ h'.NumHiddenUnits = NH := by
  unfold HiddenLayer.setW at hrun
  obtain ⟨wj, h1, hrun⟩ := bind_eq_ok hrun
  obtain ⟨wj', h2, hrun⟩ := bind_eq_ok hrun
  obtain ⟨W', h3, hrun⟩ := bind_eq_ok hrun
  have e : ({ h with W := W' } : HiddenLayer β) = h' := by simpa using hrun
  subst e
  obtain ⟨⟨s1, s2, s3⟩, s4, s5⟩ := hP
  have hW' := assign_eq_set h3
  refine ⟨⟨?_, ?_, s3⟩, s4, s5⟩
  · show ((W'.length : Nat) : Int) = h.NumInputUnits
    rw [hW', List.length_set]
    exact s1
  · intro row hrow
    have hrow' : row ∈ h.W.set j wj' := hW' ▸ hrow
    rcases List.mem_or_eq_of_mem_set hrow' with hmem | heq
    · exact s2 row hmem
    · rw [heq, assign_length h2]
      exact s2 wj (index_ok_mem h1)

theorem setB_keeps {β : Type} (h h' : HiddenLayer β) (i : Nat) (v : β) (NI NH : Int)
    (hP : ShapeInvariant h ∧ h.NumInputUnits = NI ∧ h.NumHiddenUnits = NH)
    (hrun : h.setB i v = .ok h') :
    ShapeInvariant h' ∧ h'.NumInputUnits = NI ∧ h'.NumHiddenUnits = NH := by
  unfold HiddenLayer.setB at hrun
  obtain ⟨B', h1, hrun⟩ := bind_eq_ok hrun
  have e : ({ h with B := B' } : HiddenLayer β) = h' := by simpa using hrun
  subst e
  obtain ⟨⟨s1, s2, s3⟩, s4, s5⟩ := hP
  refine ⟨⟨s1, s2, ?_⟩, s4, s5⟩
  show ((B'.length : Nat) : Int) = h.NumHiddenUnits
  rw [assign_length h1]
  exact s3

theorem Turn_keeps (h h' : HiddenLayer α) (batch deltas : List (List α))
    (option : TrainingOption α) (hs : ShapeInvariant h)
    (hrun : h.Turn batch deltas option = .ok h') :
    ShapeInvariant h' ∧ h'.NumInputUnits = h.NumInputUnits ∧
      h'.NumHiddenUnits = h.NumHiddenUnits := by
  unfold HiddenLayer.Turn at hrun
  obtain ⟨g, _, hrun⟩ := bind_eq_ok hrun
  obtain ⟨gradW, gradB⟩ := g
  simp only at hrun
  refine loop_preserves
    (fun s : HiddenLayer α => ShapeInvariant s ∧ s.NumInputUnits = h.NumInputUnits ∧
      s.NumHiddenUnits = h.NumHiddenUnits) _ ?_ _ _ _ ⟨hs, rfl, rfl⟩ hrun
  intro i s s' hP hstep
  obtain ⟨s1, hinner, hstep⟩ := bind_eq_ok hstep
  obtain ⟨_, _, hstep⟩ := bind_eq_ok hstep
  obtain ⟨_, _, hstep⟩ := bind_eq_ok hstep
  obtain ⟨_, _, hstep⟩ := bind_eq_ok hstep
  refine setB_keeps s1 s' _ _ _ _ ?_ hstep
  refine loop_preserves
    (fun t : HiddenLayer α => ShapeInvariant t ∧ t.NumInputUnits = h.NumInputUnits ∧
      t.NumHiddenUnits = h.NumHiddenUnits) _ ?_ _ _ _ hP hinner
  intro j t t' hQ hj
  obtain ⟨_, _, hj⟩ := bind_eq_ok hj
  obtain ⟨_, _, hj⟩ := bind_eq_ok hj
  obtain ⟨_, _, hj⟩ := bind_eq_ok hj
  obtain ⟨_, _, hj⟩ := bind_eq_ok hj
  obtain ⟨_, _, hj⟩ := bind_eq_ok hj
  obtain ⟨t1, ht1, hj⟩ := bind_eq_ok hj
  have hQ1 := setW_keeps t t1 _ _ _ _ _ hQ ht1
  cases hL : option.L2Regularization
  · rw [hL] at hj
    have e : t1 = t' := by simpa using hj
    exact e ▸ hQ1
  · rw [hL] at hj
    simp only [if_true] at hj
    obtain ⟨_, _, hj⟩ := bind_eq_ok hj
    obtain ⟨_, _, hj⟩ := bind_eq_ok hj
    exact setW_keeps t1 t' _ _ _ _ _ hQ1 hj

end ShapeKept

section BatchLemmas

theorem Backward_vec (n : Nat) (p a : Nat → α) (kp ka : Nat) (d : α → α)
    (W : List (List α)) (B : List α) (NI : Int) (f : Option (α → α)) :
    HiddenLayer.Backward ⟨W, B, NI, (n : Int), f, some d⟩ (vec (n + kp) p) (vec (n + ka) a)
      = .ok (vec n (fun i => a i * d (p i))) := by
  unfold HiddenLayer.Backward
  simp only [makeSlice_cast, ok_bind, Int.toNat_natCast]
  apply loop_fill
  intro i G hi
  simp only [index_vec _ (Nat.lt_add_right kp hi), index_vec _ (Nat.lt_add_right ka hi), call,
    ok_bind]

theorem AccumulateDeltaBatch_tab (m n N : Nat) (E dl : Nat → Nat → α) (B : List α)
    (f d : Option (α → α)) :
    HiddenLayer.AccumulateDeltaBatch ⟨tab m n E, B, (m : Int), (n : Int), f, d⟩ (tab N n dl)
      = .ok (tab N m (fun k j => ∑ i in Finset.range n, dl k i * E j i)) := by
  unfold HiddenLayer.AccumulateDeltaBatch
  have hl : (tab N n dl).length = N := vec_length _ _
  rw [hl, replicate_eq_vec]
  unfold tab
  apply loop_fill
  intro k G hk
  have := AccumulateDelta_tab m n E (dl k) 0 B f d
  rw [Nat.add_zero] at this
  unfold tab at this
  simp only [index_vec _ hk, ok_bind, this]

theorem BackwardBatch_tab (m n N : Nat) (E P U : Nat → Nat → α) (B : List α)
    (f : Option (α → α)) (d : α → α) :
    HiddenLayer.BackwardBatch ⟨tab m n E, B, (m : Int), (n : Int), f, some d⟩ (tab N n P)
        (tab N n U)
      = .ok (tab N n (fun k i => U k i * d (P k i)),
             tab N m (fun k j => ∑ i in Finset.range n, (U k i * d (P k i)) * E j i)) := by
  unfold HiddenLayer.BackwardBatch
  have hl : (tab N n P).length = N := vec_length _ _
  have hfill : loop (fun i deltas => do
        let pi ← index (tab N n P) i
        let ai ← index (tab N n U) i
        let dl ← HiddenLayer.Backward ⟨tab m n E, B, (m : Int), (n : Int), f, some d⟩ pi ai
        assign deltas i dl) N (vec N (fun _ => ([] : List α)))
      = .ok (vec N (fun k => vec n (fun i => U k i * d (P k i)))) := by
    apply loop_fill
    intro k G hk
    have := Backward_vec n (P k) (U k) 0 0 d (tab m n E) B (m : Int) f
    rw [Nat.add_zero] at this
    simp only [index_tab _ hk, ok_bind, this]
  rw [hl, replicate_eq_vec, hfill]
  simp only [ok_bind]
  have := AccumulateDeltaBatch_tab m n N E (fun k i => U k i * d (P k i)) B f (some d)
  unfold tab at this ⊢
  rw [this]
  rfl

theorem BackwardWithTargetBatch_tab (m n N : Nat) (E P T : Nat → Nat → α) (B : List α)
    (f : Option (α → α)) (d : α → α) :
    HiddenLayer.BackwardWithTargetBatch ⟨tab m n E, B, (m : Int), (n : Int), f, some d⟩
        (tab N n P) (tab N n T)
      = .ok (tab N n (fun k i => (P k i - T k i) * d (P k i)),
             tab N m (fun k j => ∑ i in Finset.range n,
                ((P k i - T k i) * d (P k i)) * E j i)) := by
  unfold HiddenLayer.BackwardWithTargetBatch
  have hl : (tab N n P).length = N := vec_length _ _
  have hfill : loop (fun i deltas => do
        let pi ← index (tab N n P) i
        let ti ← index (tab N n T) i
        let dl ← HiddenLayer.BackwardWithTarget
          ⟨tab m n E, B, (m : Int), (n : Int), f, some d⟩ pi ti
        assign deltas i dl) N (vec N (fun _ => ([] : List α)))
      = .ok (vec N (fun k => vec n (fun i => (P k i - T k i) * d (P k i)))) := by
    apply loop_fill
    intro k G hk
    have := BackwardWithTarget_vec n (P k) (T k) 0 0 d (tab m n E) B (m : Int) f
    rw [Nat.add_zero] at this
    simp only [index_tab _ hk, ok_bind, this]
  rw [hl, replicate_eq_vec, hfill]
  simp only [ok_bind]
  have := AccumulateDeltaBatch_tab m n N E (fun k i => (P k i - T k i) * d (P k i)) B f
    (some d)
  unfold tab at this ⊢
  rw [this]
  rfl

theorem eq_tab_of_wellShaped {batch : List (List α)} {N n : Nat} {z : Int}
    (hN : batch.length = N) (hb : WellShaped batch z) (hz : (n : Int) = z) :
    batch = tab N n (entry batch) :=
  eq_tab_of_shape hN (fun row hrow => by
    have := hb row hrow
    omega)

end BatchLemmas

section BatchShape

theorem eq_of_shape_W (h : HiddenLayer α) (hs : ShapeInvariant h) :
    (⟨tab h.W.length h.B.length (entry h.W), h.B, (h.W.length : Int), (h.B.length : Int),
      h.f, h.d⟩ : HiddenLayer α) = h := by
  obtain ⟨W, B, NI, NH, f, d⟩ := h
  obtain ⟨h1, h2, h3⟩ := hs
  simp only at h1 h2 h3
  subst h1 h3
  have hn : ∀ row ∈ W, row.length = B.length := fun row hr => by
    have := h2 row hr
    omega
  simp only
  rw [← eq_tab_of_shape rfl hn]

theorem getD_eq_vec_of_wellShaped {batch : List (List α)} {z : Int} {n : Nat}
    (hb : WellShaped batch z) (hz : (n : Int) = z) (k : Nat) (hk : k < batch.length) :
    batch.getD k [] = vec n (entry batch k) :=
  eq_vec_of_length (getD_length_of_wellShaped hb hz k hk) 0

end BatchShape

/-- C16: for every layer satisfying the shape invariant (with derivative `d`) and every
well-shaped batch of length `N`, `BackwardBatch(predicted, upstream)` and
`BackwardWithTargetBatch(predicted, target)` each return a pair `(deltas, acc)` of batches
of length `N`, in input order, where `deltas[n] = Backward(predicted[n], upstream[n])`,
that is `deltas[n][i] = upstream[n][i] * d(predicted[n][i])`, respectively
`deltas[n] = BackwardWithTarget(predicted[n], target[n])`, and
`acc[n] = AccumulateDelta(deltas[n])`. -/
theorem HiddenLayer.BackwardBatch_spec (h : HiddenLayer α) (d : α → α)
    (predicted upstream target : List (List α))
    (hs : ShapeInvariant h) (hd : h.d = some d)
    (hp : WellShaped predicted h.NumHiddenUnits)
    (hu : WellShaped upstream h.NumHiddenUnits)
    (ht : WellShaped target h.NumHiddenUnits)
    (hNu : upstream.length = predicted.length) (hNt : target.length = predicted.length) :
    (∃ deltas acc, h.BackwardBatch predicted upstream = .ok (deltas, acc) ∧
      deltas.length = predicted.length ∧ acc.length = predicted.length ∧
      ∀ k, k < predicted.length → ∃ dk ak,
        deltas[k]? = some dk ∧ acc[k]? = some ak ∧
        h.Backward (predicted.getD k []) (upstream.getD k []) = .ok dk ∧
        (∀ i : Nat, (i : Int) < h.NumHiddenUnits →
          dk[i]? = some (entry upstream k i * d (entry predicted k i))) ∧
        h.AccumulateDelta dk = .ok ak) ∧
    (∃ deltas acc, h.BackwardWithTargetBatch predicted target = .ok (deltas, acc) ∧
      deltas.length = predicted.length ∧ acc.length = predicted.length ∧
      ∀ k, k < predicted.length → ∃ dk ak,
        deltas[k]? = some dk ∧ acc[k]? = some ak ∧
        h.BackwardWithTarget (predicted.getD k []) (target.getD k []) = .ok dk ∧
        h.AccumulateDelta dk = .ok ak) := by
  have hL := eq_of_shape_W h hs
  rw [hd] at hL
  have hnz : ((h.B.length : Nat) : Int) = h.NumHiddenUnits := hs.2.2
  have hpt := eq_tab_of_wellShaped (rfl : predicted.length = predicted.length) hp hnz
  have hut := eq_tab_of_wellShaped hNu hu hnz
  have htt := eq_tab_of_wellShaped hNt ht hnz
  constructor
  · have key := BackwardBatch_tab h.W.length h.B.length predicted.length (entry h.W)
      (entry predicted) (entry upstream) h.B h.f d
    rw [hL, ← hpt, ← hut] at key
    refine ⟨_, _, key, vec_length _ _, vec_length _ _, ?_⟩
    intro k hk
    refine ⟨_, _, getElem?_tab _ hk, getElem?_tab _ hk, ?_, ?_, ?_⟩
    · have := Backward_vec h.B.length (entry predicted k) (entry upstream k) 0 0 d
        (tab h.W.length h.B.length (entry h.W)) h.B (h.W.length : Int) h.f
      rw [Nat.add_zero, hL, ← getD_eq_vec_of_wellShaped hp hnz k hk,
        ← getD_eq_vec_of_wellShaped hu hnz k (hNu ▸ hk)] at this
      exact this
    · intro i hi
      have hi2 : i < h.B.length := by omega
      rw [getElem?_vec, if_pos hi2]
    · have := AccumulateDelta_tab h.W.length h.B.length (entry h.W)
        (fun i => entry upstream k i * d (entry predicted k i)) 0 h.B h.f (some d)
      rw [Nat.add_zero, hL] at this
      exact this
  · have key := BackwardWithTargetBatch_tab h.W.length h.B.length predicted.length (entry h.W)
      (entry predicted) (entry target) h.B h.f d
    rw [hL, ← hpt, ← htt] at key
    refine ⟨_, _, key, vec_length _ _, vec_length _ _, ?_⟩
    intro k hk
    refine ⟨_, _, getElem?_tab _ hk, getElem?_tab _ hk, ?_, ?_⟩
    · have := BackwardWithTarget_vec h.B.length (entry predicted k) (entry target k) 0 0 d
        (tab h.W.length h.B.length (entry h.W)) h.B (h.W.length : Int) h.f
      rw [Nat.add_zero, hL, ← getD_eq_vec_of_wellShaped hp hnz k hk,
        ← getD_eq_vec_of_wellShaped ht hnz k (hNt ▸ hk)] at this
      exact this
    · have := AccumulateDelta_tab h.W.length h.B.length (entry h.W)
        (fun i => (entry predicted k i - entry target k i) * d (entry predicted k i)) 0 h.B h.f
        (some d)
      rw [Nat.add_zero, hL] at this
      exact this

/-- Witness of C16: the scenario layer on the two-sample batch `[[1], [2]]` with upstream
deltas `[[3], [4]]` and targets `[[3], [4]]`. -/
theorem HiddenLayer.BackwardBatch_spec_witness :
    scenarioLayer.BackwardBatch [[1], [2]] [[3], [4]]
      = .ok ([[3], [4]], [[3/2, 3/2], [2, 2]]) ∧
    scenarioLayer.BackwardWithTargetBatch [[1], [2]] [[3], [4]]
      = .ok ([[-2], [-2]], [[-1, -1], [-1, -1]]) ∧
    ((∃ deltas acc, scenarioLayer.BackwardBatch [[1], [2]] [[3], [4]] = .ok (deltas, acc) ∧
      deltas.length = ([[1], [2]] : List (List ℚ)).length ∧
      acc.length = ([[1], [2]] : List (List ℚ)).length ∧
      ∀ k, k < ([[1], [2]] : List (List ℚ)).length → ∃ dk ak,
        deltas[k]? = some dk ∧ acc[k]? = some ak ∧
        scenarioLayer.Backward (([[1], [2]] : List (List ℚ)).getD k [])
          (([[3], [4]] : List (List ℚ)).getD k []) = .ok dk ∧
        (∀ i : Nat, (i : Int) < scenarioLayer.NumHiddenUnits →
          dk[i]? = some (entry ([[3], [4]] : List (List ℚ)) k i
            * (fun _ : ℚ => (1 : ℚ)) (entry ([[1], [2]] : List (List ℚ)) k i))) ∧
        scenarioLayer.AccumulateDelta dk = .ok ak) ∧
    (∃ deltas acc, scenarioLayer.BackwardWithTargetBatch [[1], [2]] [[3], [4]]
        = .ok (deltas, acc) ∧
      deltas.length = ([[1], [2]] : List (List ℚ)).length ∧
      acc.length = ([[1], [2]] : List (List ℚ)).length ∧
      ∀ k, k < ([[1], [2]] : List (List ℚ)).length → ∃ dk ak,
        deltas[k]? = some dk ∧ acc[k]? = some ak ∧
        scenarioLayer.BackwardWithTarget (([[1], [2]] : List (List ℚ)).getD k [])
          (([[3], [4]] : List (List ℚ)).getD k []) = .ok dk ∧
        scenarioLayer.AccumulateDelta dk = .ok ak)) :=
  ⟨by norm_num [scenarioLayer, HiddenLayer.BackwardBatch, HiddenLayer.Backward,
      HiddenLayer.AccumulateDeltaBatch, HiddenLayer.AccumulateDelta, makeSlice, loop, index,
      assign, call, List.replicate],
   by norm_num [scenarioLayer, HiddenLayer.BackwardWithTargetBatch,
      HiddenLayer.BackwardWithTarget, HiddenLayer.AccumulateDeltaBatch,
      HiddenLayer.AccumulateDelta, makeSlice, loop, index, assign, call, List.replicate],
   HiddenLayer.BackwardBatch_spec scenarioLayer (fun _ => 1) [[1], [2]] [[3], [4]] [[3], [4]]
    (by decide) rfl (by decide) (by decide) (by decide) rfl rfl⟩

/-- C18: `AccumulateDelta` is the transpose of the linear part of `Forward`: for every
layer satisfying the shape invariant with identity activation and all-zero bias, every
input `x` of length `numInputUnits` and every `delta` of length `numHiddenUnits`,
`Σ_i Forward(x)[i] * delta[i] = Σ_j x[j] * AccumulateDelta(delta)[j]`. -/
theorem HiddenLayer.AccumulateDelta_adjoint (h : HiddenLayer α) (f : α → α)
    (x delta : List α)
    (hs : ShapeInvariant h) (hf : h.f = some f) (hid : ∀ v, f v = v)
    (hB : ∀ b ∈ h.B, b = 0)
    (hx : (x.length : Int) = h.NumInputUnits)
    (hd : (delta.length : Int) = h.NumHiddenUnits) :
    ∃ y acc, h.Forward x = .ok y ∧ h.AccumulateDelta delta = .ok acc ∧
      (List.zipWith (fun a b => a * b) y delta).sum
        = (List.zipWith (fun a b => a * b) x acc).sum := by
  have hxl : x.length = h.W.length := by have := hs.1; omega
  have hdl : delta.length = h.B.length := by have := hs.2.2; omega
  have hL := eq_of_shape h hs
  have hxv := eq_vec_of_length hxl 0
  have hdv := eq_vec_of_length hdl 0
  have kF := Forward_tab h.W.length h.B.length (entry h.W) (fun i => h.B.getD i 0)
    (fun j => x.getD j 0) f h.NumInputUnits h.NumHiddenUnits h.d
  have kA := AccumulateDelta_tab h.W.length h.B.length (entry h.W) (fun i => delta.getD i 0) 0
    h.B h.f h.d
  have hL2 := eq_of_shape_W h hs
  have hL3 : (⟨tab h.W.length h.B.length (entry h.W), vec h.B.length (fun i => h.B.getD i 0),
      h.NumInputUnits, h.NumHiddenUnits, some f, h.d⟩ : HiddenLayer α) = h := by
    rw [← hf, ← hs.1, ← hs.2.2]
    exact hL.symm
  rw [hL3, ← hxv] at kF
  rw [Nat.add_zero, hL2, ← hdv] at kA
  refine ⟨_, _, kF, kA, ?_⟩
  conv_lhs => rw [hdv]
  conv_rhs => rw [hxv]
  rw [zipWith_vec, zipWith_vec, sum_vec, sum_vec]
  have hb0 : ∀ i, i < h.B.length → h.B.getD i 0 = 0 := fun i hi => by
    rw [List.getD_eq_getElem _ _ hi]
    exact hB _ (List.getElem_mem hi)
  have e1 : ∑ i in Finset.range h.B.length,
      f (∑ j in Finset.range h.W.length, entry h.W j i * x.getD j 0 + h.B.getD i 0)
        * delta.getD i 0
      = ∑ i in Finset.range h.B.length, ∑ j in Finset.range h.W.length,
          entry h.W j i * x.getD j 0 * delta.getD i 0 := by
    apply Finset.sum_congr rfl
    intro i hi
    rw [hid, hb0 i (Finset.mem_range.mp hi), add_zero, Finset.sum_mul]
  have e2 : ∑ j in Finset.range h.W.length,
      x.getD j 0 * ∑ i in Finset.range h.B.length, delta.getD i 0 * entry h.W j i
      = ∑ j in Finset.range h.W.length, ∑ i in Finset.range h.B.length,
          entry h.W j i * x.getD j 0 * delta.getD i 0 := by
    apply Finset.sum_congr rfl
    intro j _
    rw [Finset.mul_sum]
    apply Finset.sum_congr rfl
    intro i _
    ring
  rw [e1, e2, Finset.sum_comm]

/-- Witness of C18: the scenario layer (identity activation, bias `[0]`), `x = [1, 1]`
and `delta = [3]`; both sides equal `3`. -/
theorem HiddenLayer.AccumulateDelta_adjoint_witness :
    (List.zipWith (fun a b => a * b) ([1] : List ℚ) [3]).sum = 3 ∧
    (List.zipWith (fun a b => a * b) ([1, 1] : List ℚ) [3/2, 3/2]).sum = 3 ∧
    scenarioLayer.Forward [1, 1] = .ok [1] ∧
    scenarioLayer.AccumulateDelta [3] = .ok [3/2, 3/2] ∧
    ∃ y acc, scenarioLayer.Forward [1, 1] = .ok y ∧
      scenarioLayer.AccumulateDelta [3] = .ok acc ∧
      (List.zipWith (fun a b => a * b) y [3]).sum
        = (List.zipWith (fun a b => a * b) [1, 1] acc).sum :=
  ⟨by norm_num, by norm_num,
   by norm_num [scenarioLayer, HiddenLayer.Forward, loop, index, assign, call],
   by norm_num [scenarioLayer, HiddenLayer.AccumulateDelta, makeSlice, loop, index, assign,
      List.replicate],
   HiddenLayer.AccumulateDelta_adjoint scenarioLayer (fun x => x) [1, 1] [3]
    (by decide) rfl (fun _ => rfl) (by simp [scenarioLayer]) rfl rfl⟩

/-! ## Dense layer: the update step on an empty batch, index safety -/

section EmptyBatchLemmas

theorem loop_error_first {σ : Type} (body : Nat → σ → Run σ) (s : σ) (e : Fault)
    (h0 : body 0 s = .error e) (n : Nat) (hn : 0 < n) : loop body n s = .error e := by
  induction n with
  | zero => exact absurd hn (Nat.lt_irrefl 0)
  | succ k ih =>
    rw [loop_succ]
    cases k with
    | zero => exact h0
    | succ j => rw [ih (Nat.succ_pos j), error_bind]

theorem Turn_empty_tab (m n : Nat) (hm : 0 < m) (hn : 0 < n) (E : Nat → Nat → α)
    (b : Nat → α) (f d : Option (α → α)) (deltas : List (List α))
    (option : TrainingOption α) :
    HiddenLayer.Turn ⟨tab m n E, vec n b, (m : Int), (n : Int), f, d⟩ [] deltas option
      = .error .divByZero := by
  have hG := Gradient_tab m n hm E b f d [] deltas (Nat.zero_le _)
    (fun k hk => absurd hk (Nat.not_lt_zero k)) (fun k hk => absurd hk (Nat.not_lt_zero k))
  unfold HiddenLayer.Turn
  rw [hG]
  simp only [ok_bind, Int.toNat_natCast]
  apply loop_error_first _ _ _ _ n hn
  dsimp only
  rw [Int.toNat_natCast, loop_error_first _ _ .divByZero _ m hm]
  · rfl
  · simp only [index_tab _ hm, index_vec _ hn, ok_bind, List.length_nil, Nat.cast_zero,
      fdiv_zero, error_bind]

theorem Turn_no_hidden_tab (m : Nat) (hm : 0 < m) (E : Nat → Nat → α)
    (b : Nat → α) (f d : Option (α → α)) (batch deltas : List (List α))
    (hN : batch.length ≤ deltas.length)
    (hx : ∀ k, k < batch.length → m ≤ (batch.getD k []).length)
    (option : TrainingOption α) :
    HiddenLayer.Turn ⟨tab m 0 E, vec 0 b, (m : Int), ((0 : Nat) : Int), f, d⟩ batch deltas
        option
      = .ok ⟨tab m 0 E, vec 0 b, (m : Int), ((0 : Nat) : Int), f, d⟩ := by
  have hG := Gradient_tab m 0 hm E b f d batch deltas hN hx (fun k _ => Nat.zero_le _)
  unfold HiddenLayer.Turn
  rw [hG]
  rfl

theorem getD_length_ge {β : Type} {batch : List (List β)} {z : Int} {m : Nat}
    (hb : ∀ v ∈ batch, z ≤ (v.length : Int)) (hz : (m : Int) = z) (k : Nat)
    (hk : k < batch.length) : m ≤ (batch.getD k []).length := by
  rw [List.getD_eq_getElem _ _ hk]
  have := hb _ (List.getElem_mem hk)
  omega

end EmptyBatchLemmas

section CarrierLemmas

/-- Total correctness of a loop: an invariant that every step keeps, completing, holds of
the final state of the loop, which completes. -/
theorem loop_inv {σ : Type} (P : σ → Prop) (body : Nat → σ → Run σ) (n : Nat)
    (hstep : ∀ k s, k < n → P s → ∃ s', body k s = .ok s' ∧ P s') (s0 : σ) (h0 : P s0) :
    ∃ s, loop body n s0 = .ok s ∧ P s := by
  induction n with
  | zero => exact ⟨s0, rfl, h0⟩
  | succ m ih =>
    obtain ⟨s, hs, hP⟩ := ih (fun k s hk => hstep k s (Nat.lt_succ_of_lt hk))
    obtain ⟨s', hs', hP'⟩ := hstep m s (Nat.lt_succ_self m) hP
    exact ⟨s', by rw [loop_succ, hs, ok_bind, hs'], hP'⟩

theorem loop_inv_pair {β : Type} (m n : Nat)
    (body : Nat → List (List β) × List β → Run (List (List β) × List β)) (N : Nat)
    (hstep : ∀ k G B, k < N →
      ∃ G' B', body k (tab m n G, vec n B) = .ok (tab m n G', vec n B'))
    (G0 : Nat → Nat → β) (B0 : Nat → β) :
    ∃ GW GB, loop body N (tab m n G0, vec n B0) = .ok (tab m n GW, vec n GB) := by
  obtain ⟨s, hrun, GW, GB, hs⟩ := loop_inv
    (fun s : List (List β) × List β => ∃ GW GB, s = (tab m n GW, vec n GB)) body N
    (by
      intro k s hk hP
      obtain ⟨G, B, rfl⟩ := hP
      obtain ⟨G', B', h⟩ := hstep k G B hk
      exact ⟨_, h, G', B', rfl⟩)
    (tab m n G0, vec n B0) ⟨G0, B0, rfl⟩
  exact ⟨GW, GB, hs ▸ hrun⟩

theorem loop_inv_layer {β : Type} (m n : Nat) (NI NH : Int) (f d : Option (β → β))
    (body : Nat → HiddenLayer β → Run (HiddenLayer β)) (N : Nat)
    (hstep : ∀ k E b, k < N →
      ∃ E' b', body k ⟨tab m n E, vec n b, NI, NH, f, d⟩
        = .ok ⟨tab m n E', vec n b', NI, NH, f, d⟩)
    (E0 : Nat → Nat → β) (b0 : Nat → β) :
    ∃ E' b', loop body N ⟨tab m n E0, vec n b0, NI, NH, f, d⟩
      = .ok ⟨tab m n E', vec n b', NI, NH, f, d⟩ := by
  obtain ⟨s, hrun, E', b', hs⟩ := loop_inv
    (fun s : HiddenLayer β => ∃ E' b', s = ⟨tab m n E', vec n b', NI, NH, f, d⟩) body N
    (by
      intro k s hk hP
      obtain ⟨E, b, rfl⟩ := hP
      obtain ⟨E', b', h⟩ := hstep k E b hk
      exact ⟨_, h, E', b', rfl⟩)
    ⟨tab m n E0, vec n b0, NI, NH, f, d⟩ ⟨E0, b0, rfl⟩
  exact ⟨E', b', hs ▸ hrun⟩

theorem MakeMatrix_zero_eq_tab {β : Type} (z : β) (m n : Nat) :
    @MakeMatrix β ⟨z⟩ m n = tab m n (fun _ _ => z) := by
  unfold MakeMatrix tab
  rw [replicate_eq_vec, replicate_eq_vec]
  rfl

theorem subAtOn_tab {β : Type} (ops : FloatOps β) {m n j i : Nat} (E : Nat → Nat → β) (v : β)
    (hj : j < m) (hi : i < n) :
    ∃ G, HiddenLayer.subAtOn ops (tab m n E) j i v = .ok (tab m n G) := by
  refine ⟨fun j' i' => if j' = j ∧ i' = i then ops.sub (E j' i') v else E j' i', ?_⟩
  unfold HiddenLayer.subAtOn
  simp only [index_tab _ hj, index_vec _ hi, assign_vec _ _ hi, ok_bind]
  unfold tab
  rw [assign_vec _ _ hj]
  congr 1
  apply vec_congr
  intro j' _
  by_cases h1 : j' = j
  · subst h1
    simp only [if_true, true_and]
    apply vec_congr
    intro i' _
    by_cases h2 : i' = i
    · subst h2; simp
    · simp [h2]
  · simp [h1]

theorem GradientOn_tab {β : Type} (ops : FloatOps β) (m n : Nat) (hm : 0 < m)
    (E : Nat → Nat → β) (b : Nat → β) (f d : Option (β → β)) (input deltas : List (List β))
    (hN : input.length ≤ deltas.length)
    (hx : ∀ k, k < input.length → m ≤ (input.getD k []).length)
    (hd : ∀ k, k < input.length → n ≤ (deltas.getD k []).length) :
    ∃ GW GB, HiddenLayer.GradientOn ops ⟨tab m n E, vec n b, (m : Int), (n : Int), f, d⟩
      input deltas = .ok (tab m n GW, vec n GB) := by
  unfold HiddenLayer.GradientOn
  simp only [index_tab _ hm, ok_bind, vec_length, Int.toNat_natCast, MakeMatrix_zero_eq_tab,
    replicate_eq_vec]
  have hl : (tab m n E).length = m := vec_length _ _
  rw [hl]
  apply loop_inv_pair
  intro k G0 B0 hk
  have hdk : index deltas k = .ok (deltas.getD k []) := index_getD (by omega) []
  have hxk : index input k = .ok (input.getD k []) := index_getD hk []
  have hdki : ∀ i, i < n →
      index (deltas.getD k []) i = .ok ((deltas.getD k []).getD i ops.zero) :=
    fun i hi => index_getD (by have := hd k hk; omega) _
  have hxkj : ∀ j, j < m →
      index (input.getD k []) j = .ok ((input.getD k []).getD j ops.zero) :=
    fun j hj => index_getD (by have := hx k hk; omega) _
  apply loop_inv_pair
  intro i G1 B1 hi
  obtain ⟨G2, hg⟩ : ∃ G2, loop
      (fun j gW => do
        let dn ← index deltas k
        let dni ← index dn i
        let xn ← index input k
        let xnj ← index xn j
        HiddenLayer.subAtOn ops gW j i (ops.mul dni xnj)) m (tab m n G1)
      = .ok (tab m n G2) := by
    obtain ⟨g, hg, G2, hG2⟩ := loop_inv
      (fun g : List (List β) => ∃ G, g = tab m n G)
      (fun j gW => do
        let dn ← index deltas k
        let dni ← index dn i
        let xn ← index input k
        let xnj ← index xn j
        HiddenLayer.subAtOn ops gW j i (ops.mul dni xnj)) m
      (by
        intro j g hj hR
        obtain ⟨G, rfl⟩ := hR
        obtain ⟨G', hG'⟩ := subAtOn_tab ops G
          (ops.mul ((deltas.getD k []).getD i ops.zero) ((input.getD k []).getD j ops.zero))
          hj hi
        exact ⟨_, by simp only [hdk, hdki i hi, hxk, hxkj j hj, ok_bind, hG'], G', rfl⟩)
      (tab m n G1) ⟨G1, rfl⟩
    exact ⟨G2, hG2 ▸ hg⟩
  rw [hg]
  simp only [hdk, hdki i hi, index_vec _ hi, assign_vec _ _ hi, ok_bind, pure_eq_ok]
  exact ⟨_, _, rfl⟩

theorem TurnOn_tab {β : Type} (ops : FloatOps β) (m n : Nat) (E : Nat → Nat → β)
    (b : Nat → β) (f d : Option (β → β)) (batch deltas : List (List β))
    (option : TrainingOption β) (GW : Nat → Nat → β) (GB : Nat → β)
    (hG : HiddenLayer.GradientOn ops ⟨tab m n E, vec n b, (m : Int), (n : Int), f, d⟩
      batch deltas = .ok (tab m n GW, vec n GB)) :
    ∃ E' b', HiddenLayer.TurnOn ops ⟨tab m n E, vec n b, (m : Int), (n : Int), f, d⟩
      batch deltas option = .ok ⟨tab m n E', vec n b', (m : Int), (n : Int), f, d⟩ := by
  unfold HiddenLayer.TurnOn
  rw [hG]
  simp only [ok_bind, Int.toNat_natCast]
  apply loop_inv_layer
  intro i E1 b1 hi
  dsimp only
  rw [Int.toNat_natCast]
  obtain ⟨E2, b2, ht⟩ := loop_inv_layer m n (m : Int) (n : Int) f d
    (fun j (h : HiddenLayer β) => do
      let gj ← index (tab m n GW) j
      let gji ← index gj i
      let q := ops.div (ops.mul option.LearningRate gji) (ops.ofNat batch.length)
      let wj ← index h.W j
      let wji ← index wj i
      let h ← h.setW j i (ops.add wji q)
      if option.L2Regularization then do
        let wj ← index h.W j
        let wji ← index wj i
        h.setW j i (ops.mul wji (ops.sub ops.one option.RegularizationRate))
      else pure h) m
    (by
      intro j E3 b3 hj
      simp only [index_tab _ hj, index_vec _ hi, ok_bind, setW_tab _ _ _ _ _ _ _ hj hi]
      cases option.L2Regularization
      · exact ⟨_, _, rfl⟩
      · simp only [if_true, index_tab _ hj, index_vec _ hi, ok_bind,
          setW_tab _ _ _ _ _ _ _ hj hi]
        exact ⟨_, _, rfl⟩)
    E1 b1
  rw [ht]
  simp only [ok_bind, index_vec _ hi, setB_vec _ _ _ _ _ _ _ hi]
  exact ⟨_, _, rfl⟩

theorem exists_tab_of_shape {β : Type} (z : β) (h : HiddenLayer β) (hs : ShapeInvariant h) :
    ∃ E b, h = ⟨tab h.W.length h.B.length E, vec h.B.length b, (h.W.length : Int),
      (h.B.length : Int), h.f, h.d⟩ := by
  obtain ⟨W, B, NI, NH, f, d⟩ := h
  obtain ⟨h1, h2, h3⟩ := hs
  simp only at h1 h2 h3
  subst h1 h3
  have hn : ∀ row ∈ W, row.length = B.length := fun row hr => by
    have := h2 row hr
    omega
  refine ⟨@entry β ⟨z⟩ W, fun i => B.getD i z, ?_⟩
  simp only
  rw [← @eq_tab_of_shape β ⟨z⟩ W _ _ rfl hn, ← eq_vec_of_length rfl z]

/-- On the field, `Gradient` is `GradientOn` with the operations of the field. -/
theorem Gradient_eq_GradientOn (h : HiddenLayer α) (input deltas : List (List α)) :
    h.Gradient input deltas = h.GradientOn exactOps input deltas := rfl

/-- On the field, `Turn` on a batch that is not empty is `TurnOn` with the operations of
the field: the two differ only in the outcome of a division by zero. -/
theorem Turn_eq_TurnOn (h : HiddenLayer α) (batch deltas : List (List α))
    (option : TrainingOption α) (hne : batch ≠ []) :
    h.Turn batch deltas option = h.TurnOn exactOps batch deltas option := by
  have hN : (batch.length : α) ≠ 0 :=
    Nat.cast_ne_zero.mpr (fun e => hne (List.length_eq_zero.mp e))
  unfold HiddenLayer.Turn HiddenLayer.TurnOn
  rw [Gradient_eq_GradientOn]
  simp only [fdiv_ok hN, ok_bind]
  rfl

end CarrierLemmas

/-- C19: index safety of the update step.  For every float carrier and its operations
(all of them total, as those of `float64` are), every layer satisfying the shape invariant
with `NumInputUnits >= 1` and `NumHiddenUnits >= 1`, and every batch and deltas with
`len(deltas) >= len(batch)`, batch vectors of length `>= NumInputUnits` and delta vectors
of length `>= NumHiddenUnits`, the empty batch included: `Gradient` and `Turn` complete,
every slice index being in range (the access `h.W[0]` included), so the runs have no
fault, and `Turn` leaves a layer of the same shape.  (`NumHiddenUnits >= 1` is not
needed.) -/
theorem HiddenLayer.Turn_index_safe {β : Type} (ops : FloatOps β) (h : HiddenLayer β)
    (batch deltas : List (List β)) (option : TrainingOption β)
    (hs : ShapeInvariant h) (hNI : 1 ≤ h.NumInputUnits)
    (hlen : batch.length ≤ deltas.length)
    (hx : ∀ v ∈ batch, h.NumInputUnits ≤ (v.length : Int))
    (hd : ∀ v ∈ deltas, h.NumHiddenUnits ≤ (v.length : Int)) :
    (∃ g, h.GradientOn ops batch deltas = .ok g) ∧
    (∃ h', h.TurnOn ops batch deltas option = .ok h' ∧ ShapeInvariant h' ∧
      h'.NumInputUnits = h.NumInputUnits ∧ h'.NumHiddenUnits = h.NumHiddenUnits) := by
  have hm : 0 < h.W.length := by have := hs.1; omega
  obtain ⟨E, b, hL⟩ := exists_tab_of_shape ops.zero h hs
  obtain ⟨GW, GB, hG⟩ := GradientOn_tab ops h.W.length h.B.length hm E b h.f h.d batch deltas
    hlen (fun k hk => getD_length_ge hx hs.1 k hk)
    (fun k hk => getD_length_ge hd hs.2.2 k (Nat.lt_of_lt_of_le hk hlen))
  obtain ⟨E', b', hT⟩ := TurnOn_tab ops h.W.length h.B.length E b h.f h.d batch deltas option
    GW GB hG
  rw [← hL] at hG hT
  exact ⟨⟨_, hG⟩, ⟨_, hT, shape_of_tab _ _ _ _ _ _, hs.1, hs.2.2⟩⟩

/-- Witness of C19.  On the carrier with a non-finite value, the scenario layer and the
empty batch: `Turn` completes and leaves non-finite weights and bias.  On the field, the
scenario layer with a batch vector and a delta vector longer than the layer needs and one
delta vector more than batch vectors: `Turn` is `TurnOn` with the operations of the field
and completes. -/
theorem HiddenLayer.Turn_index_safe_witness :
    (scenarioLayerNF.TurnOn nonFiniteOps [] [] ⟨some 1, true, some (1/10)⟩).map
        (fun h => (h.W, h.B)) = .ok ([[none], [none]], [none]) ∧
    ((∃ g, scenarioLayerNF.GradientOn nonFiniteOps [] [] = .ok g) ∧
      (∃ h', scenarioLayerNF.TurnOn nonFiniteOps [] [] ⟨some 1, true, some (1/10)⟩ = .ok h' ∧
        ShapeInvariant h' ∧ h'.NumInputUnits = scenarioLayerNF.NumInputUnits ∧
        h'.NumHiddenUnits = scenarioLayerNF.NumHiddenUnits)) ∧
    scenarioLayer.Turn [[1, 1, 5]] [[1, 7], [2]] ⟨1, false, 0⟩
      = scenarioLayer.TurnOn exactOps [[1, 1, 5]] [[1, 7], [2]] ⟨1, false, 0⟩ ∧
    ((∃ g, scenarioLayer.GradientOn exactOps [[1, 1, 5]] [[1, 7], [2]] = .ok g) ∧
      (∃ h', scenarioLayer.TurnOn exactOps [[1, 1, 5]] [[1, 7], [2]] ⟨1, false, 0⟩ = .ok h' ∧
        ShapeInvariant h' ∧ h'.NumInputUnits = scenarioLayer.NumInputUnits ∧
        h'.NumHiddenUnits = scenarioLayer.NumHiddenUnits)) :=
  ⟨by simp [HiddenLayer.TurnOn, HiddenLayer.GradientOn, HiddenLayer.subAtOn, HiddenLayer.setW,
      HiddenLayer.setB, MakeMatrix, nonFiniteOps, scenarioLayerNF, loop, index, assign,
      List.replicate, Except.map],
   HiddenLayer.Turn_index_safe nonFiniteOps scenarioLayerNF [] [] ⟨some 1, true, some (1/10)⟩
    ⟨rfl, by simp [scenarioLayerNF], rfl⟩ (by decide) (by simp) (by simp) (by simp),
   Turn_eq_TurnOn scenarioLayer [[1, 1, 5]] [[1, 7], [2]] ⟨1, false, 0⟩ (by simp),
   HiddenLayer.Turn_index_safe exactOps scenarioLayer [[1, 1, 5]] [[1, 7], [2]] ⟨1, false, 0⟩
    (by decide) (by decide) (by decide) (by decide) (by decide)⟩

end Mlp
